import Mathlib

/-!
Verification of the Antigravity2api gateway core against its specification.

The definitions below are a shallow embedding of the TypeScript source:
pure functions become Lean functions, module-level mutable state becomes
explicit state passing, JavaScript numbers on the code paths modelled here
are integers (the code only ever uses integral values there), and code
that throws becomes `Except`.  File and network I/O boundaries are modelled
by passing the data that would cross them as explicit arguments.
-/

namespace Antigravity

/-! ## Sliding-window rate limiter (src/admin/key-manager.ts `checkRateLimit`)

`usage` is the `{ [timestamp: string]: number }` object of an `ApiKey`,
modelled as an association list of `(bucketTimestampMs, count)` pairs.
JavaScript object keys here are decimal numerals, so a key is a `Nat`.
`Date.now()` values are nonnegative, so times are `Nat`; the JS expression
`now - windowMs` can be negative, but it is only used in comparisons
`parseInt(timestamp) >= cutoffTime` against nonnegative timestamps, for
which truncated `Nat` subtraction gives the same outcome. -/

structure RateLimit where
  enabled : Bool
  maxRequests : Nat
  windowMs : Nat
  deriving Repr, DecidableEq

structure ApiKeyRec where
  rateLimit : RateLimit
  usage : List (Nat × Nat)
  deriving Repr, DecidableEq

/-- Result record of `checkRateLimit`: the fields of the returned object,
with `none` for fields absent on a given path. -/
structure RLResult where
  allowed : Bool
  limit : Option Nat
  remaining : Option Nat
  resetIn : Option Nat
  errMsg : Option String
  deriving Repr, DecidableEq

/-- `Math.floor(now / 10000) * 10000` — the 10-second bucket of a time. -/
def jsBucket (now : Nat) : Nat := now / 10000 * 10000

/-- The purge loop: `delete key.usage[timestamp]` for `timestamp < cutoffTime`,
keeping entries with `parseInt(timestamp) >= cutoffTime`. -/
def purgeUsage (usage : List (Nat × Nat)) (cutoff : Nat) : List (Nat × Nat) :=
  usage.filter (fun p => cutoff ≤ p.1)

/-- `requestCount`: the sum of the in-window bucket counts. -/
def sumCounts (usage : List (Nat × Nat)) : Nat :=
  (usage.map Prod.snd).sum

/-- `Math.min(...Object.keys(key.usage).map(t => parseInt(t)))`.
On the deny path the map is provably nonempty (the summed count is at least
`maxRequests >= 1`); the `0` default for `[]` is never reached there. -/
def minUsageKey (usage : List (Nat × Nat)) : Nat :=
  match usage.map Prod.fst with
  | [] => 0
  | k :: ks => ks.foldl Nat.min k

/-- `key.usage[minute] = (key.usage[minute] || 0) + 1` where
`minute = Math.floor(now / 10000) * 10000`.  A fresh numeric key appended to
a JS object is iterated after smaller numeric keys; since all observations
of `usage` (sum, min, membership) are order-independent we append. -/
def bumpBucket (usage : List (Nat × Nat)) (b : Nat) : List (Nat × Nat) :=
  if usage.any (fun p => p.1 = b) then
    usage.map (fun p => if p.1 = b then (p.1, p.2 + 1) else p)
  else
    usage ++ [(b, 1)]

/-- `checkRateLimit` for a key that exists in the cache (the `find` that
precedes this in the source has succeeded), as a function of the key record
and `Date.now()`; returns the result object and the mutated key record. -/
def checkRateLimit (key : ApiKeyRec) (now : Nat) : RLResult × ApiKeyRec :=
  if !key.rateLimit.enabled then
    ({ allowed := true, limit := none, remaining := none, resetIn := none,
       errMsg := none }, key)
  else
    -- `key.rateLimit.windowMs || 60000`, `key.rateLimit.maxRequests || 100`
    let windowMs := if key.rateLimit.windowMs = 0 then 60000 else key.rateLimit.windowMs
    let maxRequests := if key.rateLimit.maxRequests = 0 then 100 else key.rateLimit.maxRequests
    let cutoff := now - windowMs
    let kept := purgeUsage key.usage cutoff
    let requestCount := sumCounts kept
    if maxRequests ≤ requestCount then
      -- `resetTime = Math.min(...) + windowMs`, `waitSeconds = ceil((resetTime - now)/1000)`
      let resetTime := minUsageKey kept + windowMs
      let waitSeconds := (resetTime - now + 999) / 1000
      ({ allowed := false, limit := some maxRequests, remaining := some 0,
         resetIn := some waitSeconds, errMsg := some "请求频率超限" },
       { key with usage := kept })
    else
      let minute := jsBucket now
      ({ allowed := true, limit := some maxRequests,
         remaining := some (maxRequests - requestCount - 1), resetIn := none,
         errMsg := none },
       { key with usage := bumpBucket kept minute })

/-- A burst: successive `checkRateLimit` calls at the given times,
threading the key record. -/
def runBurst (key : ApiKeyRec) : List Nat → List RLResult × ApiKeyRec
  | [] => ([], key)
  | t :: ts =>
    let step := checkRateLimit key t
    let rest := runBurst step.2 ts
    (step.1 :: rest.1, rest.2)

theorem purge_eq_self {u : List (Nat × Nat)} {cutoff : Nat} (h : ∀ p ∈ u, cutoff ≤ p.1) :
    purgeUsage u cutoff = u := by
  unfold purgeUsage
  exact List.filter_eq_self.mpr (fun p hp => by simpa using h p hp)

-- step lemmas
theorem checkRateLimit_denied {cap window c : Nat} {u : List (Nat × Nat)} {t : Nat}
    (hwin : 0 < window) (hcap : 0 < cap)
    (hkeep : purgeUsage u (t - window) = u)
    (hsum : sumCounts u = c) (hc : cap ≤ c) :
    checkRateLimit ⟨⟨true, cap, window⟩, u⟩ t =
      ({ allowed := false, limit := some cap, remaining := some 0,
         resetIn := some ((minUsageKey u + window - t + 999) / 1000),
         errMsg := some "请求频率超限" }, ⟨⟨true, cap, window⟩, u⟩) := by
  unfold checkRateLimit
  simp only [Bool.not_true, Bool.false_eq_true, if_false,
    if_neg hwin.ne', if_neg hcap.ne', hkeep, hsum, if_pos hc]

theorem checkRateLimit_allowed {cap window c : Nat} {u : List (Nat × Nat)} {t : Nat}
    (hwin : 0 < window) (hcap : 0 < cap)
    (hkeep : purgeUsage u (t - window) = u)
    (hsum : sumCounts u = c) (hc : c < cap) :
    checkRateLimit ⟨⟨true, cap, window⟩, u⟩ t =
      ({ allowed := true, limit := some cap, remaining := some (cap - c - 1),
         resetIn := none, errMsg := none },
       ⟨⟨true, cap, window⟩, bumpBucket u (jsBucket t)⟩) := by
  unfold checkRateLimit
  simp only [Bool.not_true, Bool.false_eq_true, if_false,
    if_neg hwin.ne', if_neg hcap.ne', hkeep, hsum, if_neg (not_le.mpr hc)]


theorem bump_keys {u : List (Nat × Nat)} {b : Nat} :
    ∀ q ∈ bumpBucket u b, q.1 ∈ u.map Prod.fst ∨ q.1 = b := by
  intro q hq
  unfold bumpBucket at hq
  cases hany : u.any (fun p => p.1 = b) with
  | true =>
    rw [hany, if_pos rfl] at hq
    rcases List.mem_map.mp hq with ⟨p, hp, hpq⟩
    by_cases hpb : p.1 = b
    · rw [if_pos hpb] at hpq
      right; rw [← hpq, hpb]
    · rw [if_neg hpb] at hpq
      left; exact hpq ▸ List.mem_map.mpr ⟨p, hp, rfl⟩
  | false =>
    rw [hany] at hq
    simp only [Bool.false_eq_true, if_false] at hq
    rcases List.mem_append.mp hq with h1 | h1
    · exact Or.inl (List.mem_map.mpr ⟨q, h1, rfl⟩)
    · simp only [List.mem_singleton] at h1
      subst h1; right; rfl

theorem any_key_eq_true {u : List (Nat × Nat)} {b : Nat} (h : b ∈ u.map Prod.fst) :
    u.any (fun p => p.1 = b) = true := by
  rcases List.mem_map.mp h with ⟨p, hp, hpb⟩
  exact List.any_eq_true.mpr ⟨p, hp, by simp [hpb]⟩

theorem any_key_eq_false {u : List (Nat × Nat)} {b : Nat} (h : b ∉ u.map Prod.fst) :
    u.any (fun p => p.1 = b) = false := by
  rw [List.any_eq_false]
  intro p hp
  simp only [decide_eq_true_eq]
  intro hpb
  exact h (List.mem_map.mpr ⟨p, hp, hpb⟩)

theorem bump_of_not_mem {u : List (Nat × Nat)} {b : Nat} (h : b ∉ u.map Prod.fst) :
    bumpBucket u b = u ++ [(b, 1)] := by
  unfold bumpBucket
  rw [any_key_eq_false h]
  simp

theorem keys_bump {u : List (Nat × Nat)} {b : Nat} (hnd : (u.map Prod.fst).Nodup) :
    ((bumpBucket u b).map Prod.fst).Nodup := by
  by_cases hmem : b ∈ u.map Prod.fst
  · unfold bumpBucket
    rw [any_key_eq_true hmem, if_pos rfl]
    have heq : (u.map (fun p => if p.1 = b then (p.1, p.2 + 1) else p)).map Prod.fst
        = u.map Prod.fst := by
      rw [List.map_map]
      apply List.map_congr_left
      intro p _
      by_cases hpb : p.1 = b <;> simp [hpb]
    rw [heq]; exact hnd
  · rw [bump_of_not_mem hmem, List.map_append]
    simp only [List.map_cons, List.map_nil]
    rw [List.nodup_append]
    refine ⟨hnd, List.nodup_singleton b, ?_⟩
    intro x hx
    simp only [List.mem_singleton]
    intro hxb
    exact hmem (hxb ▸ hx)

theorem sum_map_incr {b : Nat} :
    ∀ (u : List (Nat × Nat)), (u.map Prod.fst).Nodup → b ∈ u.map Prod.fst →
      sumCounts (u.map (fun p => if p.1 = b then (p.1, p.2 + 1) else p))
        = sumCounts u + 1 := by
  intro u
  induction u with
  | nil => intro _ h; simp at h
  | cons p u ih =>
    intro hnd hmem
    simp only [List.map_cons, List.nodup_cons] at hnd
    by_cases hpb : p.1 = b
    · have hu : ∀ q ∈ u, q.1 ≠ b := by
        intro q hq hqb
        apply hnd.1
        rw [hpb, ← hqb]
        exact List.mem_map.mpr ⟨q, hq, rfl⟩
      have heq : u.map (fun q => if q.1 = b then (q.1, q.2 + 1) else q) = u := by
        conv_rhs => rw [← List.map_id u]
        apply List.map_congr_left
        intro q hq
        rw [if_neg (hu q hq)]
        rfl
      unfold sumCounts
      simp only [List.map_cons, if_pos hpb, heq, List.sum_cons]
      omega
    · have hmem2 : b ∈ u.map Prod.fst := by
        rcases List.mem_map.mp hmem with ⟨q, hq, hqb⟩
        rcases List.mem_cons.mp hq with h1 | h1
        · exact absurd (h1 ▸ hqb) hpb
        · exact List.mem_map.mpr ⟨q, h1, hqb⟩
      have hrec := ih hnd.2 hmem2
      unfold sumCounts at hrec ⊢
      simp only [List.map_cons, if_neg hpb, List.sum_cons]
      omega

theorem sumCounts_bump {u : List (Nat × Nat)} {b : Nat}
    (hnd : (u.map Prod.fst).Nodup) :
    sumCounts (bumpBucket u b) = sumCounts u + 1 := by
  by_cases hmem : b ∈ u.map Prod.fst
  · unfold bumpBucket
    rw [any_key_eq_true hmem, if_pos rfl]
    exact sum_map_incr u hnd hmem
  · rw [bump_of_not_mem hmem]
    unfold sumCounts
    simp

theorem runBurst_cons (key : ApiKeyRec) (t : Nat) (ts : List Nat) :
    runBurst key (t :: ts) =
      ((checkRateLimit key t).1 :: (runBurst (checkRateLimit key t).2 ts).1,
       (runBurst (checkRateLimit key t).2 ts).2) := by
  simp [runBurst]

theorem runBurst_invariant (cap window b0 : Nat) (hcap : 0 < cap) (hwin : 0 < window) :
    ∀ (ts : List Nat) (u : List (Nat × Nat)) (c : Nat),
      sumCounts u = c →
      (u.map Prod.fst).Nodup →
      (∀ p ∈ u, b0 ≤ p.1) →
      (∀ p ∈ u, ∀ t ∈ ts, p.1 ≤ t) →
      (∀ t ∈ ts, b0 ≤ jsBucket t) →
      List.Sorted (· ≤ ·) ts →
      (∀ t ∈ ts, t ≤ b0 + window) →
      (runBurst ⟨⟨true, cap, window⟩, u⟩ ts).1.length = ts.length ∧
      (∀ i (hi : i < (runBurst ⟨⟨true, cap, window⟩, u⟩ ts).1.length),
        ((runBurst ⟨⟨true, cap, window⟩, u⟩ ts).1.get ⟨i, hi⟩).allowed = decide (c + i < cap) ∧
        (c + i < cap →
          ((runBurst ⟨⟨true, cap, window⟩, u⟩ ts).1.get ⟨i, hi⟩).remaining
            = some (cap - (c + i) - 1))) ∧
      (runBurst ⟨⟨true, cap, window⟩, u⟩ ts).1.countP (fun r => r.allowed)
        = min (cap - c) ts.length := by
  intro ts
  induction ts with
  | nil =>
    intro u c _ _ _ _ _ _ _
    refine ⟨rfl, ?_, ?_⟩
    · intro i hi; simp [runBurst] at hi
    · simp [runBurst]
  | cons t rest ih =>
    intro u c hsum hnd hb0 hle hbuck hsort hwbound
    have hkeep : purgeUsage u (t - window) = u := by
      apply purge_eq_self
      intro p hp
      have h1 : t ≤ b0 + window := hwbound t (List.mem_cons_self t rest)
      have h2 : b0 ≤ p.1 := hb0 p hp
      omega
    by_cases hc : cap ≤ c
    · -- denied step
      have hstep := checkRateLimit_denied (t := t) hwin hcap hkeep hsum hc
      have hrec := ih u c hsum hnd hb0
        (fun p hp t2 ht2 => hle p hp t2 (List.mem_cons_of_mem t ht2))
        (fun t2 ht2 => hbuck t2 (List.mem_cons_of_mem t ht2))
        hsort.of_cons
        (fun t2 ht2 => hwbound t2 (List.mem_cons_of_mem t ht2))
      rw [runBurst_cons, hstep]
      dsimp only
      refine ⟨by simp [hrec.1], ?_, ?_⟩
      · intro i hi
        cases i with
        | zero =>
          refine ⟨?_, ?_⟩
          · show RLResult.allowed _ = _
            have hd : ¬ (c + 0 < cap) := by omega
            simp [decide_eq_false hd]
            omega
          · intro h; omega
        | succ j =>
          have hj : j < (runBurst ⟨⟨true, cap, window⟩, u⟩ rest).1.length := by
            simp only [List.length_cons] at hi
            omega
          have hpt := hrec.2.1 j hj
          have harith : c + (j + 1) = c + 1 + j := by omega
          refine ⟨?_, ?_⟩
          · show ((runBurst ⟨⟨true, cap, window⟩, u⟩ rest).1.get ⟨j, hj⟩).allowed = _
            rw [hpt.1]
            have : ¬ (c + j < cap) := by omega
            have h2 : ¬ (c + (j + 1) < cap) := by omega
            simp [decide_eq_false, this, h2]
          · intro h; omega
      · show List.countP _ (_ :: _) = _
        rw [List.countP_cons, hrec.2.2]
        have hz : (cap - c) = 0 := by omega
        simp [hz]
    · -- allowed step
      have hstep := checkRateLimit_allowed (t := t) hwin hcap hkeep hsum (not_le.mp hc)
      have hb0t : b0 ≤ jsBucket t := hbuck t (List.mem_cons_self t rest)
      have hbt_le : jsBucket t ≤ t := Nat.div_mul_le_self t 10000
      have hrec := ih (bumpBucket u (jsBucket t)) (c + 1)
        (by rw [sumCounts_bump hnd, hsum])
        (keys_bump hnd)
        (by
          intro p hp
          rcases bump_keys p hp with h1 | h1
          · rcases List.mem_map.mp h1 with ⟨q, hq, hqp⟩
            exact hqp ▸ hb0 q hq
          · rw [h1]; exact hb0t)
        (by
          intro p hp t2 ht2
          rcases bump_keys p hp with h1 | h1
          · rcases List.mem_map.mp h1 with ⟨q, hq, hqp⟩
            exact hqp ▸ hle q hq t2 (List.mem_cons_of_mem t ht2)
          · rw [h1]
            exact le_trans hbt_le (List.rel_of_sorted_cons hsort t2 ht2))
        (fun t2 ht2 => hbuck t2 (List.mem_cons_of_mem t ht2))
        hsort.of_cons
        (fun t2 ht2 => hwbound t2 (List.mem_cons_of_mem t ht2))
      rw [runBurst_cons, hstep]
      dsimp only
      refine ⟨by simp [hrec.1], ?_, ?_⟩
      · intro i hi
        cases i with
        | zero =>
          refine ⟨?_, ?_⟩
          · show RLResult.allowed _ = _
            have hd : c + 0 < cap := by omega
            simp [decide_eq_true hd]
            omega
          · intro _
            show RLResult.remaining _ = _
            simp
        | succ j =>
          have hj : j < (runBurst ⟨⟨true, cap, window⟩, bumpBucket u (jsBucket t)⟩ rest).1.length := by
            simp only [List.length_cons] at hi
            omega
          have hpt := hrec.2.1 j hj
          have harith : c + 1 + j = c + (j + 1) := by omega
          refine ⟨?_, ?_⟩
          · show ((runBurst ⟨⟨true, cap, window⟩, bumpBucket u (jsBucket t)⟩ rest).1.get ⟨j, hj⟩).allowed = _
            rw [hpt.1, harith]
          · intro h
            show ((runBurst ⟨⟨true, cap, window⟩, bumpBucket u (jsBucket t)⟩ rest).1.get ⟨j, hj⟩).remaining = _
            rw [hpt.2 (by omega), harith]
      · show List.countP _ (_ :: _) = _
        rw [List.countP_cons, hrec.2.2]
        simp only [decide_eq_true_eq]
        norm_num
        omega


theorem jsBucket_mono {a b : Nat} (h : a ≤ b) : jsBucket a ≤ jsBucket b :=
  Nat.mul_le_mul_right 10000 (Nat.div_le_div_right h)

/-- C1 (amended): for an enabled rate limit with policy `(cap, window)` and a
burst of `k > cap` calls at nondecreasing times that all fall within the
window measured from the start of the first call's 10-second bucket
(`t ≤ jsBucket t0 + window`), starting from an empty usage-bucket map,
exactly `cap` calls are allowed and the rest denied; the `i`-th allowed call
returns `remaining = cap - count - 1` where `count = i` is the sum of the
in-window buckets before that call's increment. -/
theorem C1_rate_limiter_burst (cap window : Nat) (hcap : 0 < cap) (hwin : 0 < window)
    (t0 : Nat) (rest : List Nat)
    (hsort : List.Sorted (· ≤ ·) (t0 :: rest))
    (hwindow : ∀ t ∈ t0 :: rest, t ≤ jsBucket t0 + window)
    (hk : cap < (t0 :: rest).length) :
    (runBurst ⟨⟨true, cap, window⟩, []⟩ (t0 :: rest)).1.length = (t0 :: rest).length ∧
    (runBurst ⟨⟨true, cap, window⟩, []⟩ (t0 :: rest)).1.countP (fun r => r.allowed) = cap ∧
    (∀ i (hi : i < (runBurst ⟨⟨true, cap, window⟩, []⟩ (t0 :: rest)).1.length),
      (i < cap →
        ((runBurst ⟨⟨true, cap, window⟩, []⟩ (t0 :: rest)).1.get ⟨i, hi⟩).allowed = true ∧
        ((runBurst ⟨⟨true, cap, window⟩, []⟩ (t0 :: rest)).1.get ⟨i, hi⟩).remaining
          = some (cap - i - 1)) ∧
      (cap ≤ i →
        ((runBurst ⟨⟨true, cap, window⟩, []⟩ (t0 :: rest)).1.get ⟨i, hi⟩).allowed = false)) := by
  have hbuck : ∀ t ∈ t0 :: rest, jsBucket t0 ≤ jsBucket t := by
    intro t ht
    rcases List.mem_cons.mp ht with h1 | h1
    · rw [h1]
    · exact jsBucket_mono (List.rel_of_sorted_cons hsort t h1)
  have hmain := runBurst_invariant cap window (jsBucket t0) hcap hwin (t0 :: rest) [] 0
    rfl List.nodup_nil (by intro p hp; simp at hp) (by intro p hp; simp at hp)
    hbuck hsort hwindow
  refine ⟨hmain.1, ?_, ?_⟩
  · rw [hmain.2.2]
    omega
  · intro i hi
    have hpt := hmain.2.1 i hi
    refine ⟨?_, ?_⟩
    · intro hlt
      refine ⟨?_, ?_⟩
      · rw [hpt.1]
        simp only [decide_eq_true_eq]
        omega
      · rw [hpt.2 (by omega)]
        congr 1
        omega
    · intro hge
      rw [hpt.1]
      simp only [decide_eq_false_iff_not]
      omega

/-- Witness for C1: policy `(2, 60000)`, burst at times 0, 1000, 2000;
exactly 2 calls are allowed. -/
theorem C1_rate_limiter_burst_witness :
    (runBurst ⟨⟨true, 2, 60000⟩, []⟩ [0, 1000, 2000]).1.countP (fun r => r.allowed) = 2 :=
  (C1_rate_limiter_burst 2 60000 (by decide) (by decide) 0 [1000, 2000]
    (by decide) (by decide) (by decide)).2.1

/-- C1 counterexample: the claim as stated is false.  With policy
`(cap, window) = (1, 60000)` the two calls at times 9999 and 69998 arrive
within one window of each other (59999 ms apart), yet both are allowed
(2 ≠ cap = 1): the first call's bucket `0` has already been purged at the
second call because bucket timestamps are truncated to 10-second
granularity. -/
theorem C1_counterexample :
    (59999 < 60000) ∧
    (runBurst ⟨⟨true, 1, 60000⟩, []⟩ [9999, 69998]).1.countP (fun r => r.allowed) = 2 := by
  constructor
  · decide
  · decide


/-! ## Identity cache (src/utils/utils.ts `getCachedIds`) -/

structure CachedIds where
  projectId : String
  projectExpiry : Nat
  sessionId : String
  sessionExpiry : Nat
  deriving Repr, DecidableEq

def SESSION_ID_DURATION : Nat := 60 * 60 * 1000
def PROJECT_ID_DURATION : Nat := 12 * 60 * 60 * 1000

/-- `getCachedIds`, as a function of `Date.now()`, the current cache entry
for the API key (`none` on a miss) and the fresh identifiers
(`generateProjectId()` / `generateSessionId()` results) that the renewal
branches would draw; each fresh value is used only in the branch the code
takes.  `if (now > cache.projectExpiry)` is `projectExpiry < now`. -/
def getCachedIds (now : Nat) (freshProject freshSession : String)
    (cache : Option CachedIds) : CachedIds :=
  match cache with
  | none =>
    { projectId := freshProject, projectExpiry := now + PROJECT_ID_DURATION,
      sessionId := freshSession, sessionExpiry := now + SESSION_ID_DURATION }
  | some c =>
    let c1 := if c.projectExpiry < now then
        { c with projectId := freshProject, projectExpiry := now + PROJECT_ID_DURATION }
      else c
    if c1.sessionExpiry < now then
      { c1 with sessionId := freshSession, sessionExpiry := now + SESSION_ID_DURATION }
    else c1

/-- C9: `project_id` and `session_id` expire and renew independently: a call
that regenerates an expired `session_id` (project not expired) leaves the
entry's `project_id` and project expiry unchanged, and one that regenerates
an expired `project_id` (session not expired) leaves the `session_id` and
session expiry unchanged. -/
theorem C9_identity_independence (now : Nat) (fp fs : String) (c : CachedIds) :
    (now ≤ c.projectExpiry → c.sessionExpiry < now →
      (getCachedIds now fp fs (some c)).projectId = c.projectId ∧
      (getCachedIds now fp fs (some c)).projectExpiry = c.projectExpiry ∧
      (getCachedIds now fp fs (some c)).sessionId = fs ∧
      (getCachedIds now fp fs (some c)).sessionExpiry = now + SESSION_ID_DURATION) ∧
    (now ≤ c.sessionExpiry → c.projectExpiry < now →
      (getCachedIds now fp fs (some c)).sessionId = c.sessionId ∧
      (getCachedIds now fp fs (some c)).sessionExpiry = c.sessionExpiry ∧
      (getCachedIds now fp fs (some c)).projectId = fp ∧
      (getCachedIds now fp fs (some c)).projectExpiry = now + PROJECT_ID_DURATION) := by
  constructor
  · intro hp hs
    unfold getCachedIds
    dsimp only
    rw [if_neg (not_lt.mpr hp)]
    rw [if_pos hs]
    exact ⟨rfl, rfl, rfl, rfl⟩
  · intro hs hp
    unfold getCachedIds
    dsimp only
    rw [if_pos hp]
    simp only
    rw [if_neg (not_lt.mpr hs)]
    exact ⟨rfl, rfl, rfl, rfl⟩

/-- Witness for C9 at `now = 1000` with one field expired each way. -/
theorem C9_identity_independence_witness :
    (getCachedIds 1000 "p2" "s2" (some ⟨"p1", 5000, "s1", 200⟩)).projectId = "p1" ∧
    (getCachedIds 1000 "p2" "s2" (some ⟨"p1", 5000, "s1", 200⟩)).sessionId = "s2" ∧
    (getCachedIds 1000 "p2" "s2" (some ⟨"p1", 200, "s1", 5000⟩)).sessionId = "s1" ∧
    (getCachedIds 1000 "p2" "s2" (some ⟨"p1", 200, "s1", 5000⟩)).projectId = "p2" := by
  have h1 := (C9_identity_independence 1000 "p2" "s2" ⟨"p1", 5000, "s1", 200⟩).1
    (by decide) (by decide)
  have h2 := (C9_identity_independence 1000 "p2" "s2" ⟨"p1", 200, "s1", 5000⟩).2
    (by decide) (by decide)
  exact ⟨h1.1, h1.2.2.1, h2.1, h2.2.2.1⟩

/-! ## Log manager (src/admin/log-manager.ts) -/

structure LogEntry where
  timestamp : String
  level : String
  message : String
  deriving Repr, DecidableEq

def MAX_LOGS : Nat := 200
/-- `FLUSH_INTERVAL = 42` — the literal period handed to
`setInterval(..., FLUSH_INTERVAL)` in `startFlushTimer`, i.e. milliseconds;
the adjacent source comment says "42秒写入一次" (write every 42 seconds). -/
def FLUSH_INTERVAL : Nat := 42
def MAX_BUFFER_SIZE : Nat := 50

/-- `Array.prototype.slice(-n)`: the last `n` elements (all of them when the
list is shorter). -/
def jsSliceLast (l : List LogEntry) (n : Nat) : List LogEntry :=
  l.drop (l.length - n)

/-- `flushLogs`: no-op on an empty buffer; otherwise merge the on-disk array
with the buffered entries, truncate to the newest `MAX_LOGS`, and clear the
buffer.  Returns the new (disk, buffer) pair. -/
def flushLogs (disk buffer : List LogEntry) : List LogEntry × List LogEntry :=
  if buffer = [] then (disk, buffer)
  else (jsSliceLast (disk ++ buffer) MAX_LOGS, [])

/-- `addLog`: append the entry to the buffer and flush immediately once the
buffer reaches `MAX_BUFFER_SIZE`. -/
def addLog (disk buffer : List LogEntry) (e : LogEntry) : List LogEntry × List LogEntry :=
  let buf2 := buffer ++ [e]
  if MAX_BUFFER_SIZE ≤ buf2.length then flushLogs disk buf2 else (disk, buf2)

/-- C6: the buffer-reaches-50 flush and the 200-entry truncation hold, but
the timer period constant is 42, which `setInterval` interprets as 42
milliseconds — not the 42 seconds stated by the claim and by the source's
own comment.  `FLUSH_INTERVAL ≠ 42 * 1000` exhibits the divergence. -/
theorem C6_flush_interval_code_bug :
    FLUSH_INTERVAL = 42 ∧ FLUSH_INTERVAL ≠ 42 * 1000 ∧
    (∀ disk buf e, ((flushLogs disk (buf ++ [e])).1).length ≤ MAX_LOGS) ∧
    (∀ disk buf e, (addLog disk buf e).2 =
      if MAX_BUFFER_SIZE ≤ buf.length + 1 then [] else buf ++ [e]) := by
  refine ⟨rfl, by decide, ?_, ?_⟩
  · intro disk buf e
    unfold flushLogs jsSliceLast
    rw [if_neg (by simp)]
    simp only [List.length_drop]
    omega
  · intro disk buf e
    unfold addLog flushLogs
    simp only [List.length_append, List.length_singleton]
    by_cases h : MAX_BUFFER_SIZE ≤ buf.length + 1
    · rw [if_pos h, if_pos h, if_neg (by simp)]
    · rw [if_neg h, if_neg h]


/-! ## Identifier generation (src/utils/utils.ts) -/

/-- JavaScript `String(...)` rendering of an integer in decimal
(`String(-0) === "0"`, matching the rendering of `-(0 : Int)` here). -/
def jsIntString (i : Int) : String :=
  if i < 0 then "-" ++ Nat.repr i.natAbs else Nat.repr i.toNat

/-- The literal `9e18` from `generateSessionId`. -/
def NINE_E18 : Nat := 9000000000000000000

/-- `generateSessionId()` is `String(-Math.floor(Math.random() * 9e18))`.
`Math.floor(Math.random() * 9e18)` evaluates to a natural number `n` with
`0 ≤ n < 9e18` (`Math.random()` ranges over `[0, 1)`, and the draw `0`,
hence `n = 0`, is attainable); the generator is this function of the
floored draw. -/
def generateSessionId (n : Nat) : String := jsIntString (-(n : Int))

def adjectives : List String := ["useful", "bright", "swift", "calm", "bold"]

def nouns : List String := ["fuze", "wave", "spark", "flow", "core"]

/-- `generateProjectId()` as a function of its three random draws: the two
word indices `Math.floor(Math.random() * 5)` and the suffix
`Math.random().toString(36).substring(2, 7)` — up to five base-36
characters, and fewer when the drawn number has a short base-36 expansion
(for example the draw `0` gives `"0".substring(2, 7) = ""`). -/
def generateProjectId (adjIdx nounIdx : Fin 5) (suffix : String) : String :=
  (adjectives.getD adjIdx "") ++ "-" ++ (nouns.getD nounIdx "") ++ "-" ++ suffix

def isLowerAZ (c : Char) : Bool := decide ('a' ≤ c) && decide (c ≤ 'z')

def isBase36 (c : Char) : Bool := isLowerAZ c || (decide ('0' ≤ c) && decide (c ≤ '9'))

/-- Decidable matcher for the anchored regex `^[a-z]+-[a-z]+-[a-z0-9]{5}$`.
Both character classes exclude `-`, so the regex is equivalent to the
deterministic parse implemented by the four functions below: a nonempty
lowercase run, `-`, a nonempty lowercase run, `-`, exactly five `[a-z0-9]`
characters, end of string. -/
def matchSuffix (l : List Char) : Bool := l.length = 5 && l.all isBase36

def matchSecond : List Char → Bool
  | [] => false
  | c :: r => if c = '-' then matchSuffix r else (isLowerAZ c && matchSecond r)

def matchSecondStart : List Char → Bool
  | [] => false
  | c :: r => isLowerAZ c && matchSecond r

def matchFirst : List Char → Bool
  | [] => false
  | c :: r => if c = '-' then matchSecondStart r else (isLowerAZ c && matchFirst r)

def matchFirstStart : List Char → Bool
  | [] => false
  | c :: r => isLowerAZ c && matchFirst r

def matchesProjectIdRegex (s : String) : Bool := matchFirstStart s.data


theorem lower_ne_dash {c : Char} (h : isLowerAZ c = true) : ¬ (c = '-') := by
  intro hc
  subst hc
  simp [isLowerAZ] at h

theorem matchFirst_run (w : List Char) (rest : List Char)
    (hw : ∀ c ∈ w, isLowerAZ c = true) :
    matchFirst (w ++ '-' :: rest) = matchSecondStart rest := by
  induction w with
  | nil => simp [matchFirst]
  | cons c w ih =>
    have hc := hw c (List.mem_cons_self c w)
    rw [List.cons_append]
    unfold matchFirst
    rw [if_neg (lower_ne_dash hc), hc]
    simp only [Bool.true_and]
    exact ih (fun d hd => hw d (List.mem_cons_of_mem c hd))

theorem matchSecond_run (w : List Char) (rest : List Char)
    (hw : ∀ c ∈ w, isLowerAZ c = true) :
    matchSecond (w ++ '-' :: rest) = matchSuffix rest := by
  induction w with
  | nil => simp [matchSecond]
  | cons c w ih =>
    have hc := hw c (List.mem_cons_self c w)
    rw [List.cons_append]
    unfold matchSecond
    rw [if_neg (lower_ne_dash hc), hc]
    simp only [Bool.true_and]
    exact ih (fun d hd => hw d (List.mem_cons_of_mem c hd))

theorem matcher_of_parts (w1 w2 sfx : List Char)
    (h1 : w1 ≠ []) (h1a : ∀ c ∈ w1, isLowerAZ c = true)
    (h2 : w2 ≠ []) (h2a : ∀ c ∈ w2, isLowerAZ c = true)
    (h5 : sfx.length = 5) (h5a : ∀ c ∈ sfx, isBase36 c = true) :
    matchFirstStart (w1 ++ '-' :: (w2 ++ '-' :: sfx)) = true := by
  match w1, h1 with
  | c :: w1, _ =>
    rw [List.cons_append]
    unfold matchFirstStart
    dsimp only
    rw [h1a c (List.mem_cons_self c w1)]
    simp only [Bool.true_and]
    rw [matchFirst_run w1 _ (fun d hd => h1a d (List.mem_cons_of_mem c hd))]
    match w2, h2 with
    | d :: w2, _ =>
      rw [List.cons_append]
      unfold matchSecondStart
      dsimp only
      rw [h2a d (List.mem_cons_self d w2)]
      simp only [Bool.true_and]
      rw [matchSecond_run w2 _ (fun e he => h2a e (List.mem_cons_of_mem d he))]
      unfold matchSuffix
      rw [h5]
      rw [Bool.and_eq_true]
      exact ⟨by decide, List.all_eq_true.mpr h5a⟩



theorem adjectives_words :
    ∀ s ∈ adjectives, s.data ≠ [] ∧ (∀ c ∈ s.data, isLowerAZ c = true) := by decide

theorem nouns_words :
    ∀ s ∈ nouns, s.data ≠ [] ∧ (∀ c ∈ s.data, isLowerAZ c = true) := by decide

theorem getD_adjectives_mem (a : Fin 5) : adjectives.getD a "" ∈ adjectives := by
  fin_cases a <;> simp [adjectives]

theorem getD_nouns_mem (b : Fin 5) : nouns.getD b "" ∈ nouns := by
  fin_cases b <;> simp [nouns]

/-- C5 (amended): a session id produced from a draw `n` with `1 ≤ n < 9e18`
is the decimal text of a negative integer strictly above `-2^63`, and a
project id whose random suffix has exactly five base-36 characters matches
`^[a-z]+-[a-z]+-[a-z0-9]{5}$`. -/
theorem C5_id_generation (n : Nat) (a b : Fin 5) (suffix : String)
    (hn1 : 1 ≤ n) (hn2 : n < NINE_E18)
    (hs5 : suffix.length = 5) (hsc : ∀ c ∈ suffix.data, isBase36 c = true) :
    (∃ z : Int, -(2 ^ 63) < z ∧ z < 0 ∧ generateSessionId n = jsIntString z) ∧
    matchesProjectIdRegex (generateProjectId a b suffix) = true := by
  constructor
  · refine ⟨-(n : Int), ?_, ?_, rfl⟩
    · have h2 : (2 : Int) ^ 63 = 9223372036854775808 := by norm_num
      have h3 : (n : Int) < 9000000000000000000 := by exact_mod_cast hn2
      omega
    · omega
  · unfold matchesProjectIdRegex generateProjectId
    have hdata : ((adjectives.getD a "" ++ "-" ++ nouns.getD b "" ++ "-" ++ suffix)).data
        = (adjectives.getD a "").data ++ '-' :: ((nouns.getD b "").data ++ '-' :: suffix.data) := by
      simp [String.data_append]
    rw [hdata]
    have ha := adjectives_words _ (getD_adjectives_mem a)
    have hb := nouns_words _ (getD_nouns_mem b)
    have hlen : suffix.data.length = 5 := hs5
    exact matcher_of_parts _ _ _ ha.1 ha.2 hb.1 hb.2 hlen hsc

/-- Witness for C5 at draw `n = 7`, word indices `0`, suffix `"a1b2c"`. -/
theorem C5_id_generation_witness :
    (∃ z : Int, -(2 ^ 63) < z ∧ z < 0 ∧ generateSessionId 7 = jsIntString z) ∧
    matchesProjectIdRegex (generateProjectId 0 0 "a1b2c") = true :=
  C5_id_generation 7 0 0 "a1b2c" (by decide) (by decide) (by decide) (by decide)

/-- C5 counterexample: the claim as stated is false — the attainable draw
`n = 0` (from `Math.random() = 0`) produces the session id `"0"`, which is
not the decimal text of any negative integer, let alone one in
`[-2^63+1, 0)`. -/
theorem C5_counterexample :
    generateSessionId 0 = "0" ∧
    ¬ (∃ z : Int, -(2 ^ 63) < z ∧ z < 0 ∧ generateSessionId 0 = jsIntString z) := by
  constructor
  · rfl
  · rintro ⟨z, _, hneg, heq⟩
    have h0 : generateSessionId 0 = "0" := rfl
    rw [h0] at heq
    unfold jsIntString at heq
    rw [if_pos hneg] at heq
    have := congrArg String.data heq
    simp [String.data_append] at this


/-! ## JavaScript string and JSON primitives (shared) -/

def quoteChar : Char := Char.ofNat 34
def backslashChar : Char := Char.ofNat 92
def lbraceChar : Char := Char.ofNat 123
def rbraceChar : Char := Char.ofNat 125

/-- The JavaScript whitespace class used by `String.prototype.trim`
(ASCII whitespace plus NBSP and the BOM; the other exotic Unicode space
code points never occur in the inputs considered here). -/
def isJsWhitespace (c : Char) : Bool :=
  c = ' ' || c = Char.ofNat 9 || c = Char.ofNat 10 || c = Char.ofNat 13 ||
  c = Char.ofNat 11 || c = Char.ofNat 12 || c = Char.ofNat 0xA0 || c = Char.ofNat 0xFEFF

/-- `String.prototype.trim()`. -/
def jsTrim (l : List Char) : List Char :=
  ((l.dropWhile isJsWhitespace).reverse.dropWhile isJsWhitespace).reverse

/-- UTF-8 byte length of one scalar value, as `Buffer.byteLength` counts. -/
def utf8CharLen (c : Char) : Nat :=
  if c.toNat < 0x80 then 1
  else if c.toNat < 0x800 then 2
  else if c.toNat < 0x10000 then 3
  else 4

def utf8Len (l : List Char) : Nat := (l.map utf8CharLen).sum

/-- JSON values (the shapes `JSON.parse` can produce; numbers restricted to
integers, which is all these code paths ever carry). -/
inductive Json where
  | str (s : String)
  | num (n : Int)
  | bool (b : Bool)
  | null
  | arr (xs : List Json)
  | obj (fields : List (String × Json))
  deriving Repr

def hexDigitChar (n : Nat) : Char :=
  if n < 10 then Char.ofNat (48 + n) else Char.ofNat (87 + n)

/-- Character escaping of `JSON.stringify` for string literals. -/
def escapeJsonChar (c : Char) : List Char :=
  if c = quoteChar then [backslashChar, quoteChar]
  else if c = backslashChar then [backslashChar, backslashChar]
  else if c = Char.ofNat 8 then [backslashChar, 'b']
  else if c = Char.ofNat 9 then [backslashChar, 't']
  else if c = Char.ofNat 10 then [backslashChar, 'n']
  else if c = Char.ofNat 12 then [backslashChar, 'f']
  else if c = Char.ofNat 13 then [backslashChar, 'r']
  else if c.toNat < 32 then
    [backslashChar, 'u', '0', '0', hexDigitChar (c.toNat / 16), hexDigitChar (c.toNat % 16)]
  else [c]

def jsonStrLit (l : List Char) : List Char :=
  quoteChar :: (l.map escapeJsonChar).flatten ++ [quoteChar]

/-! `JSON.stringify` (compact form, no spacing), producing the character
list of the serialized text. -/
mutual

def stringifyJson : Json → List Char
  | .str s => jsonStrLit s.data
  | .num n => (jsIntString n).data
  | .bool b => if b then "true".data else "false".data
  | .null => "null".data
  | .arr xs => '[' :: stringifyArr xs ++ [']']
  | .obj fs => lbraceChar :: stringifyObj fs ++ [rbraceChar]

def stringifyArr : List Json → List Char
  | [] => []
  | x :: xs =>
    stringifyJson x ++ (match xs with
      | [] => []
      | _ :: _ => ',' :: stringifyArr xs)

def stringifyObj : List (String × Json) → List Char
  | [] => []
  | (k, v) :: fs =>
    jsonStrLit k.data ++ ':' :: stringifyJson v ++ (match fs with
      | [] => []
      | _ :: _ => ',' :: stringifyObj fs)

end



/-! ## Tool schema conversion (src/utils/utils.ts sanitizeTool et al.) -/

/-- The `tool.function` object; `name := none` models a non-string `name`
value (the `typeof name !== 'string'` check). -/
structure OpenAIFunctionDef where
  name : Option String
  description : Option String
  parameters : Option Json

structure OpenAITool where
  type : String
  function : Option OpenAIFunctionDef

structure FunctionDeclaration where
  name : String
  description : String
  parameters : Json

structure AntigravityTool where
  functionDeclarations : List FunctionDeclaration

def MAX_TOOLS : Nat := 32
def MAX_TOOL_SCHEMA_SIZE : Nat := 50 * 1024

def strippedKeys : List String := ["$schema", "__proto__", "prototype"]

def stripKeys (fs : List (String × Json)) : List (String × Json) :=
  fs.filter (fun p => !(strippedKeys.contains p.1))

def enumFields (xs : List Json) : List (String × Json) :=
  xs.enum.map (fun p => (Nat.repr p.1, p.2))

/-- `parameters && typeof parameters === 'object' ? Object.assign(copy) : empty`,
followed by `delete safeParams.$schema; delete safeParams.__proto__;
delete safeParams.prototype`.  A JS array is also `typeof 'object'` and
spreads to an object keyed by decimal indices (`enumFields`); strings,
numbers, booleans, `null` and `undefined` give the empty object. -/
def toSafeParams : Option Json → Json
  | some (Json.obj fs) => Json.obj (stripKeys fs)
  | some (Json.arr xs) => Json.obj (stripKeys (enumFields xs))
  | _ => Json.obj []

/-- `sanitizeTool`: returns `none` (the tool is dropped) for non-function
tools, missing/non-string names, and names that are empty after trimming;
throws when the serialized sanitized parameters exceed 50 KiB. -/
def sanitizeTool (tool : OpenAITool) : Except String (Option AntigravityTool) :=
  if tool.type ≠ "function" then .ok none
  else
    match tool.function with
    | none => .ok none
    | some f =>
      match f.name with
      | none => .ok none
      | some nm =>
        if jsTrim nm.data = [] then .ok none
        else
          let safeDesc := f.description.getD ""
          let safeParams := toSafeParams f.parameters
          let schemaSize := utf8Len (stringifyJson safeParams)
          if MAX_TOOL_SCHEMA_SIZE < schemaSize then .error "工具参数过大，已拒绝"
          else .ok (some { functionDeclarations :=
            [{ name := nm, description := safeDesc, parameters := safeParams }] })

/-- `convertOpenAIToolsToAntigravity`: `[]` short-circuit, the 32-count
rejection, then `map(sanitizeTool).filter(nonNull)` with the first thrown
error propagating. -/
def convertOpenAIToolsToAntigravity (tools : List OpenAITool) :
    Except String (List AntigravityTool) :=
  match tools with
  | [] => .ok []
  | t :: ts =>
    if MAX_TOOLS < (t :: ts).length then .error "工具数量过多，最多支持 32 个"
    else
      match (t :: ts).mapM sanitizeTool with
      | .error e => .error e
      | .ok sanitized => .ok sanitized.reduceOption





/-- The shape test under which `sanitizeTool` keeps a tool: declared type
`"function"`, a `function` object with a string name that is nonempty after
trimming. -/
def validTool (t : OpenAITool) : Bool :=
  decide (t.type = "function") &&
  (match t.function with
   | none => false
   | some f =>
     match f.name with
     | none => false
     | some nm => !(jsTrim nm.data).isEmpty)

def toolParams (t : OpenAITool) : Option Json :=
  t.function.bind (fun f => f.parameters)

def toolSchemaSize (t : OpenAITool) : Nat :=
  utf8Len (stringifyJson (toSafeParams (toolParams t)))

def toolName (t : OpenAITool) : String :=
  match t.function with
  | some f => f.name.getD ""
  | none => ""

def toolDesc (t : OpenAITool) : String :=
  match t.function with
  | some f => f.description.getD ""
  | none => ""

def sanitizedDecl (t : OpenAITool) : AntigravityTool :=
  { functionDeclarations :=
      [{ name := toolName t, description := toolDesc t,
         parameters := toSafeParams (toolParams t) }] }

def jsonObjKeys : Json → List String
  | .obj fs => fs.map Prod.fst
  | _ => []

theorem sanitizeTool_cases (t : OpenAITool) :
    (validTool t = false ∧ sanitizeTool t = .ok none) ∨
    (validTool t = true ∧
      ((MAX_TOOL_SCHEMA_SIZE < toolSchemaSize t ∧
        sanitizeTool t = .error "工具参数过大，已拒绝") ∨
       (toolSchemaSize t ≤ MAX_TOOL_SCHEMA_SIZE ∧
        sanitizeTool t = .ok (some (sanitizedDecl t))))) := by
  rcases t with ⟨ty, fn⟩
  by_cases hty : ty = "function"
  · cases fn with
    | none =>
      left
      constructor
      · simp [validTool]
      · simp [sanitizeTool, hty]
    | some f =>
      rcases f with ⟨nm, desc, params⟩
      cases nm with
      | none =>
        left
        constructor
        · simp [validTool]
        · simp [sanitizeTool, hty]
      | some nm =>
        by_cases htrim : jsTrim nm.data = []
        · left
          constructor
          · simp [validTool, List.isEmpty_iff, htrim]
          · simp [sanitizeTool, hty, htrim]
        · right
          constructor
          · simp [validTool, hty, List.isEmpty_iff, htrim]
          · by_cases hsize :
              MAX_TOOL_SCHEMA_SIZE <
                utf8Len (stringifyJson (toSafeParams (toolParams ⟨ty, some ⟨some nm, desc, params⟩⟩)))
            · left
              refine ⟨hsize, ?_⟩
              simp only [toolParams, Option.bind, sanitizeTool, hty] at hsize ⊢
              simp [htrim, hsize, toolSchemaSize]
            · right
              refine ⟨not_lt.mp hsize, ?_⟩
              simp only [toolParams, Option.bind, sanitizeTool, hty] at hsize ⊢
              simp [htrim, hsize, sanitizedDecl, toolName, toolDesc, toolParams, Option.bind]
  · left
    constructor
    · simp [validTool, hty]
    · simp [sanitizeTool, hty]



theorem toSafeParams_stripped (p : Option Json) :
    ∀ k ∈ jsonObjKeys (toSafeParams p), k ∉ strippedKeys := by
  intro k hk
  have hgen : ∀ fs : List (String × Json),
      k ∈ (stripKeys fs).map Prod.fst → k ∉ strippedKeys := by
    intro fs hmem hbad
    rcases List.mem_map.mp hmem with ⟨q, hq, hqk⟩
    have hcf := (List.mem_filter.mp hq).2
    simp only [Bool.not_eq_true'] at hcf
    rw [hqk] at hcf
    have h2 : strippedKeys.contains k = true := List.elem_eq_true_of_mem hbad
    rw [h2] at hcf
    cases hcf
  match p with
  | none => simp [toSafeParams, jsonObjKeys] at hk
  | some (Json.str s) => simp [toSafeParams, jsonObjKeys] at hk
  | some (Json.num n) => simp [toSafeParams, jsonObjKeys] at hk
  | some (Json.bool b) => simp [toSafeParams, jsonObjKeys] at hk
  | some Json.null => simp [toSafeParams, jsonObjKeys] at hk
  | some (Json.arr xs) => exact hgen _ hk
  | some (Json.obj fs) => exact hgen _ hk

theorem mapM_sanitize_inv :
    ∀ (tools : List OpenAITool) (opts : List (Option AntigravityTool)),
      tools.mapM sanitizeTool = .ok opts →
      opts.reduceOption = (tools.filter validTool).map sanitizedDecl := by
  intro tools
  induction tools with
  | nil =>
    intro opts h
    rw [List.mapM_nil] at h
    cases h
    simp
  | cons t ts ih =>
    intro opts h
    rw [List.mapM_cons] at h
    cases hst : sanitizeTool t with
    | error e =>
      rw [hst] at h
      simp [Bind.bind, Except.bind] at h
    | ok o =>
      rw [hst] at h
      cases hrest : ts.mapM sanitizeTool with
      | error e =>
        rw [hrest] at h
        simp [Bind.bind, Except.bind, Pure.pure, Except.pure] at h
      | ok os =>
        rw [hrest] at h
        simp only [Bind.bind, Except.bind, Pure.pure, Except.pure, Except.ok.injEq] at h
        subst h
        rcases sanitizeTool_cases t with ⟨hv, hok⟩ | ⟨hv, hcase⟩
        · rw [hok] at hst
          cases hst
          simp only [List.reduceOption_cons_of_none, List.filter_cons, hv]
          simp only [Bool.false_eq_true, if_false]
          exact ih os hrest
        · rcases hcase with ⟨_, herr⟩ | ⟨_, hsome⟩
          · rw [herr] at hst; cases hst
          · rw [hsome] at hst
            cases hst
            simp only [List.reduceOption_cons_of_some, List.filter_cons, hv, if_pos]
            simp only [List.map_cons, List.cons.injEq]
            exact ⟨trivial, ih os hrest⟩

theorem mapM_ok_of_mem :
    ∀ (tools : List OpenAITool) (opts : List (Option AntigravityTool)),
      tools.mapM sanitizeTool = .ok opts →
      ∀ t ∈ tools, ∃ o, sanitizeTool t = .ok o := by
  intro tools
  induction tools with
  | nil => intro opts _ t ht; simp at ht
  | cons t2 ts ih =>
    intro opts h t ht
    rw [List.mapM_cons] at h
    cases hst : sanitizeTool t2 with
    | error e =>
      rw [hst] at h
      simp [Bind.bind, Except.bind] at h
    | ok o =>
      rw [hst] at h
      cases hrest : ts.mapM sanitizeTool with
      | error e =>
        rw [hrest] at h
        simp [Bind.bind, Except.bind, Pure.pure, Except.pure] at h
      | ok os =>
        rcases List.mem_cons.mp ht with h1 | h1
        · exact ⟨o, h1 ▸ hst⟩
        · exact ih os hrest t h1



theorem mapM_sanitize_error :
    ∀ (tools : List OpenAITool) (e : String),
      tools.mapM sanitizeTool = .error e → e = "工具参数过大，已拒绝" := by
  intro tools
  induction tools with
  | nil => intro e h; rw [List.mapM_nil] at h; cases h
  | cons t ts ih =>
    intro e h
    rw [List.mapM_cons] at h
    cases hst : sanitizeTool t with
    | error e2 =>
      rw [hst] at h
      simp only [Bind.bind, Except.bind, Except.error.injEq] at h
      subst h
      rcases sanitizeTool_cases t with ⟨_, hok⟩ | ⟨_, hcase⟩
      · rw [hok] at hst; cases hst
      · rcases hcase with ⟨_, herr⟩ | ⟨_, hsome⟩
        · rw [herr] at hst
          injection hst with h2
          exact h2.symm
        · rw [hsome] at hst; cases hst
    | ok o =>
      rw [hst] at h
      cases hrest : ts.mapM sanitizeTool with
      | error e2 =>
        rw [hrest] at h
        simp only [Bind.bind, Except.bind, Except.error.injEq] at h
        subst h
        exact ih e2 hrest
      | ok os =>
        rw [hrest] at h
        simp [Bind.bind, Except.bind, Pure.pure, Except.pure] at h

/-- C3 (amended): conversion rejects (throws) when the tool count exceeds 32
or when a kept tool's serialized sanitized parameters exceed 50 KiB; but a
non-function tool or a tool with an empty name is silently dropped, not
rejected, and every forwarded declaration's parameter schema has `$schema`,
`__proto__` and `prototype` stripped (a successful conversion returns
exactly the valid tools, sanitized, in order). -/
theorem C3_tool_conversion (tools : List OpenAITool) :
    (MAX_TOOLS < tools.length →
      convertOpenAIToolsToAntigravity tools = .error "工具数量过多，最多支持 32 个") ∧
    (∀ t ∈ tools, tools.length ≤ MAX_TOOLS → validTool t = true →
      MAX_TOOL_SCHEMA_SIZE < toolSchemaSize t →
      convertOpenAIToolsToAntigravity tools = .error "工具参数过大，已拒绝") ∧
    (∀ decls, convertOpenAIToolsToAntigravity tools = .ok decls →
      decls = (tools.filter validTool).map sanitizedDecl ∧
      ∀ d ∈ decls, ∀ fd ∈ d.functionDeclarations, ∀ k ∈ jsonObjKeys fd.parameters,
        k ∉ strippedKeys) := by
  refine ⟨?_, ?_, ?_⟩
  · intro hlen
    match tools, hlen with
    | t :: ts, hlen =>
      unfold convertOpenAIToolsToAntigravity
      dsimp only
      rw [if_pos hlen]
  · intro t ht hlen hv hsize
    have herr : sanitizeTool t = .error "工具参数过大，已拒绝" := by
      rcases sanitizeTool_cases t with ⟨hv2, _⟩ | ⟨_, hcase⟩
      · rw [hv] at hv2; cases hv2
      · rcases hcase with ⟨_, h⟩ | ⟨hle, _⟩
        · exact h
        · omega
    match tools, ht, hlen with
    | t2 :: ts, ht, hlen =>
      unfold convertOpenAIToolsToAntigravity
      dsimp only
      rw [if_neg (not_lt.mpr hlen)]
      cases hmap : (t2 :: ts).mapM sanitizeTool with
      | error e =>
        dsimp only
        rw [mapM_sanitize_error _ _ hmap]
      | ok opts =>
        exfalso
        rcases mapM_ok_of_mem _ _ hmap t ht with ⟨o, ho⟩
        rw [herr] at ho
        cases ho
  · intro decls hok
    match tools with
    | [] =>
      unfold convertOpenAIToolsToAntigravity at hok
      dsimp only at hok
      cases hok
      exact ⟨by simp, by intro d hd; simp at hd⟩
    | t :: ts =>
      unfold convertOpenAIToolsToAntigravity at hok
      dsimp only at hok
      by_cases hlen : MAX_TOOLS < (t :: ts).length
      · rw [if_pos hlen] at hok; cases hok
      · rw [if_neg hlen] at hok
        cases hmap : (t :: ts).mapM sanitizeTool with
        | error e => rw [hmap] at hok; cases hok
        | ok opts =>
          rw [hmap] at hok
          cases hok
          have heq := mapM_sanitize_inv _ _ hmap
          refine ⟨heq, ?_⟩
          intro d hd fd hfd k hk
          rw [heq] at hd
          rcases List.mem_map.mp hd with ⟨t2, _, hdt⟩
          rw [← hdt] at hfd
          simp only [sanitizedDecl, List.mem_singleton] at hfd
          rw [hfd] at hk
          exact toSafeParams_stripped _ k hk



/-- Witness for C3: 33 tools are rejected with the count error. -/
theorem C3_tool_conversion_witness :
    convertOpenAIToolsToAntigravity
      (List.replicate 33 { type := "function", function := none }) =
      .error "工具数量过多，最多支持 32 个" :=
  (C3_tool_conversion _).1 (by simp [MAX_TOOLS])

/-- C3 counterexample: the claim as stated is false — a tools list
containing a non-function tool (`type = "retrieval"`), or a tool whose name
is empty after trimming, is not rejected: conversion succeeds with the
offending tool silently dropped. -/
theorem C3_counterexample :
    convertOpenAIToolsToAntigravity
      [{ type := "retrieval",
         function := some { name := some "t", description := none, parameters := none } }]
      = .ok [] ∧
    convertOpenAIToolsToAntigravity
      [{ type := "function",
         function := some { name := some "  ", description := none, parameters := none } }]
      = .ok [] := ⟨rfl, rfl⟩


/-! ## Streaming dispatcher (src/api/client.ts `generateAssistantResponse`) -/

/-- An upstream `functionCall` part; `args` is the raw JSON value. -/
structure FunctionCallPart where
  id : String
  name : String
  args : Json

/-- One element of `response.candidates[0].content.parts` as the dispatcher
reads it: the fields it inspects, each absent or present. -/
structure UpPart where
  thought : Bool
  text : Option String
  thoughtSignature : Option String
  inlineData : Option (String × String)
  functionCall : Option FunctionCallPart

/-- One successfully `JSON.parse`d `data: ` line (lines that fail to parse
are skipped silently and objects without parts contribute no parts, so the
input is the list of parsed objects). `finishReason` is the presence of
`response.candidates[0].finishReason`. -/
structure UpData where
  parts : List UpPart
  finishReason : Bool

structure ToolCall where
  id : String
  name : String
  arguments : String
  deriving Repr, DecidableEq

/-- Callback events, one constructor per distinct `callback(...)` call site:
`thinkingOpen` is the chunk with content `"<think>\n"`, `thinkingClose` the
chunk with content `"\n</think>\n"`, `thinkingDelta` a thought text chunk,
`text` a `{type:'text'}` chunk, `toolCalls` a `{type:'tool_calls'}` event. -/
inductive CbEvent where
  | thinkingOpen
  | thinkingDelta (s : String)
  | thinkingClose
  | text (s : String)
  | toolCalls (calls : List ToolCall)

structure DispState where
  thinkingStarted : Bool
  toolCalls : List ToolCall

/-- The accumulator entry `{id, type:'function', function:{name, arguments:
JSON.stringify(args)}}`. -/
def mkToolCall (fc : FunctionCallPart) : ToolCall :=
  { id := fc.id, name := fc.name, arguments := String.mk (stringifyJson fc.args) }

def sigSuffix (sig : String) : String :=
  "\n<!-- thought_signature: " ++ sig ++ " -->"

def imageSuffix (mime data : String) : String :=
  "\n![Generated Image](data:" ++ mime ++ ";base64," ++ data ++ ")"

/-- The per-part body of the dispatcher loop. -/
def processPart (st : DispState) (p : UpPart) : DispState × List CbEvent :=
  if p.thought then
    let opens := if st.thinkingStarted then [] else [CbEvent.thinkingOpen]
    ({ st with thinkingStarted := true },
     opens ++ [CbEvent.thinkingDelta (p.text.getD "")])
  else
    match p.text with
    | some t =>
      let closes := if st.thinkingStarted then [CbEvent.thinkingClose] else []
      let content := t ++ (match p.thoughtSignature with
        | some sig => sigSuffix sig
        | none => "")
      let content2 := content ++ (match p.inlineData with
        | some md => imageSuffix md.1 md.2
        | none => "")
      ({ st with thinkingStarted := false },
       closes ++ (if content2 = "" then [] else [CbEvent.text content2]))
    | none =>
      match p.functionCall with
      | some fc => ({ st with toolCalls := st.toolCalls ++ [mkToolCall fc] }, [])
      | none => (st, [])

def processParts (st : DispState) : List UpPart → DispState × List CbEvent
  | [] => (st, [])
  | p :: ps =>
    let r1 := processPart st p
    let r2 := processParts r1.1 ps
    (r2.1, r1.2 ++ r2.2)

/-- One parsed line: process its parts, then the `finishReason` check that
flushes accumulated tool calls (closing a thinking segment first). -/
def processData (st : DispState) (d : UpData) : DispState × List CbEvent :=
  let r := processParts st d.parts
  if d.finishReason && !r.1.toolCalls.isEmpty then
    let closes := if r.1.thinkingStarted then [CbEvent.thinkingClose] else []
    (⟨false, []⟩, r.2 ++ closes ++ [CbEvent.toolCalls r.1.toolCalls])
  else (r.1, r.2)

def processStream (st : DispState) : List UpData → DispState × List CbEvent
  | [] => (st, [])
  | d :: ds =>
    let r1 := processData st d
    let r2 := processStream r1.1 ds
    (r2.1, r1.2 ++ r2.2)

/-- All callback events `generateAssistantResponse` delivers for a parsed
upstream line sequence, starting from `thinkingStarted = false` and an
empty accumulator. -/
def dispatcherEvents (datas : List UpData) : List CbEvent :=
  (processStream ⟨false, []⟩ datas).2

/-- Whether a thinking segment is open after the given events. -/
def openAfter (b : Bool) : List CbEvent → Bool
  | [] => b
  | e :: rest =>
    match e with
    | .thinkingOpen => openAfter true rest
    | .thinkingClose => openAfter false rest
    | _ => openAfter b rest

/-- Scan check: no `text` or `toolCalls` event occurs while a thinking
segment is open. -/
def noLeakAux (b : Bool) : List CbEvent → Bool
  | [] => true
  | e :: rest =>
    match e with
    | .thinkingOpen => noLeakAux true rest
    | .thinkingClose => noLeakAux false rest
    | .thinkingDelta _ => noLeakAux b rest
    | .text _ => !b && noLeakAux b rest
    | .toolCalls _ => !b && noLeakAux b rest

def noThinkLeak (l : List CbEvent) : Bool := noLeakAux false l

theorem openAfter_append (b : Bool) (l1 l2 : List CbEvent) :
    openAfter b (l1 ++ l2) = openAfter (openAfter b l1) l2 := by
  induction l1 generalizing b with
  | nil => rfl
  | cons e rest ih =>
    cases e <;> simp [openAfter, ih]

theorem noLeakAux_append (b : Bool) (l1 l2 : List CbEvent) :
    noLeakAux b (l1 ++ l2) = (noLeakAux b l1 && noLeakAux (openAfter b l1) l2) := by
  induction l1 generalizing b with
  | nil => rfl
  | cons e rest ih =>
    cases e <;> simp [noLeakAux, openAfter, ih, Bool.and_assoc]

theorem processPart_inv (st : DispState) (p : UpPart) :
    noLeakAux st.thinkingStarted (processPart st p).2 = true ∧
    openAfter st.thinkingStarted (processPart st p).2
      = (processPart st p).1.thinkingStarted := by
  unfold processPart
  by_cases hth : p.thought
  · simp only [hth, if_pos]
    cases hst : st.thinkingStarted <;>
      simp [hst, noLeakAux, openAfter]
  · simp only [hth, Bool.false_eq_true, if_false]
    cases htext : p.text with
    | some t =>
      cases hst : st.thinkingStarted <;>
        by_cases hc : (t ++ (match p.thoughtSignature with
            | some sig => sigSuffix sig
            | none => "") ++ (match p.inlineData with
            | some md => imageSuffix md.1 md.2
            | none => "")) = "" <;>
        simp_all [noLeakAux, openAfter]
    | none =>
      cases hfc : p.functionCall with
      | some fc => simp [noLeakAux, openAfter]
      | none => simp [noLeakAux, openAfter]



theorem processParts_inv (ps : List UpPart) : ∀ (st : DispState),
    noLeakAux st.thinkingStarted (processParts st ps).2 = true ∧
    openAfter st.thinkingStarted (processParts st ps).2
      = (processParts st ps).1.thinkingStarted := by
  induction ps with
  | nil => intro st; exact ⟨rfl, rfl⟩
  | cons p ps ih =>
    intro st
    have h1 := processPart_inv st p
    have h2 := ih (processPart st p).1
    unfold processParts
    constructor
    · rw [noLeakAux_append, h1.1, h1.2, h2.1]
      rfl
    · rw [openAfter_append, h1.2, h2.2]

theorem processData_inv (st : DispState) (d : UpData) :
    noLeakAux st.thinkingStarted (processData st d).2 = true ∧
    openAfter st.thinkingStarted (processData st d).2
      = (processData st d).1.thinkingStarted := by
  have hp := processParts_inv d.parts st
  unfold processData
  by_cases hfin : (d.finishReason && !(processParts st d.parts).1.toolCalls.isEmpty) = true
  · rw [if_pos hfin]
    cases hth : (processParts st d.parts).1.thinkingStarted <;>
      constructor <;>
        simp [hth, noLeakAux_append, openAfter_append, hp.1, hp.2, noLeakAux, openAfter]
  · rw [if_neg hfin]
    exact hp

theorem processStream_inv (ds : List UpData) : ∀ (st : DispState),
    noLeakAux st.thinkingStarted (processStream st ds).2 = true ∧
    openAfter st.thinkingStarted (processStream st ds).2
      = (processStream st ds).1.thinkingStarted := by
  induction ds with
  | nil => intro st; exact ⟨rfl, rfl⟩
  | cons d ds ih =>
    intro st
    have h1 := processData_inv st d
    have h2 := ih (processData st d).1
    unfold processStream
    constructor
    · rw [noLeakAux_append, h1.1, h1.2, h2.1]
      rfl
    · rw [openAfter_append, h1.2, h2.2]

/-- C10: for every upstream line sequence, no text or tool_calls event is
delivered while a thinking segment is open — whenever a `<think>\n` opening
chunk has been emitted, a `\n</think>\n` closing chunk precedes the next
text or tool_calls event (only end-of-stream may leave the final segment
unclosed). -/
theorem C10_no_text_while_thinking (datas : List UpData) :
    noThinkLeak (dispatcherEvents datas) = true := by
  unfold noThinkLeak dispatcherEvents
  have := processStream_inv datas ⟨false, []⟩
  exact this.1



/-! ## Gateway SSE framing (src/server/routes `/v1/chat/completions` and
`/anthropic/v1/messages`, streaming paths)

A run of `generateAssistantResponse` is modelled as the list of callback
events it delivered plus `failure = some msg` when it then threw (`none`
when it returned normally).  Express sends headers on the first
`res.write`, so at the `catch` block `res.headersSent` is true exactly when
at least one frame was already written. -/

structure ORun where
  events : List CbEvent
  failure : Option String

/-- The SSE frames of the OpenAI streaming route, one constructor per
`res.write` call site; `done` is the literal line `data: [DONE]`. -/
inductive OFrame where
  | contentDelta (s : String)
  | toolCallsDelta (tcs : List ToolCall)
  | finishChunk (reason : String)
  | usageChunk
  | done
  deriving Repr, DecidableEq

/-- Frames the OpenAI callback writes for one event: a `tool_calls` event
always writes a delta; any other event writes a content delta exactly when
`data.content` is truthy (a nonempty string). -/
def openaiEventFrames : CbEvent → List OFrame
  | .toolCalls tcs => [OFrame.toolCallsDelta tcs]
  | .thinkingOpen => [OFrame.contentDelta "<think>\n"]
  | .thinkingClose => [OFrame.contentDelta "\n</think>\n"]
  | .thinkingDelta s => if s = "" then [] else [OFrame.contentDelta s]
  | .text s => if s = "" then [] else [OFrame.contentDelta s]

def hasToolCallEvent (events : List CbEvent) : Bool :=
  events.any (fun e => match e with | .toolCalls _ => true | _ => false)

/-- The complete frame list the OpenAI streaming path writes for a run:
on normal completion the finish chunk (`tool_calls` wins), the usage-only
chunk and `data: [DONE]`; when the upstream call threw, the catch block
emits an error delta, a stop finish chunk and `data: [DONE]` only if no
frame had been written yet (`!res.headersSent`), and otherwise nothing. -/
def openaiStreamFrames (run : ORun) : List OFrame :=
  let evFrames := (run.events.map openaiEventFrames).flatten
  match run.failure with
  | none =>
    evFrames ++
      [OFrame.finishChunk (if hasToolCallEvent run.events then "tool_calls" else "stop"),
       OFrame.usageChunk, OFrame.done]
  | some msg =>
    if evFrames.isEmpty then
      [OFrame.contentDelta ("错误: " ++ msg), OFrame.finishChunk "stop", OFrame.done]
    else evFrames

/-- The SSE frames of the Anthropic streaming route, one constructor per
`res.write` call site. -/
inductive AFrame where
  | messageStart
  | contentBlockStart (idx : Nat)
  | contentBlockDelta (idx : Nat) (s : String)
  | toolUseStart (idx : Nat) (id name : String)
  | contentBlockStop (idx : Nat)
  | messageDelta (stopReason : String)
  | messageStop
  | errorEvent (msg : String)
  deriving Repr, DecidableEq

/-- `data.content` as the Anthropic callback reads it (`undefined` for
`tool_calls` events). -/
def cbEventContent : CbEvent → Option String
  | .thinkingOpen => some "<think>\n"
  | .thinkingDelta s => some s
  | .thinkingClose => some "\n</think>\n"
  | .text s => some s
  | .toolCalls _ => none

structure AState where
  contentStarted : Bool
  accumulated : String
  toolCalls : List ToolCall
  parseError : Option String

/-- The `toolCalls.forEach` body: parse each call's arguments with the
injected strict `safeJsonParse` (modelled by `parseArgs`; `.error e` is a
throw with message `e`).  A failing call records the error and `return`s
(continuing with the next call); a succeeding call writes a `tool_use`
block start and stop.  Returns the last recorded error, if any. -/
def processToolUses (parseArgs : String → Except String Unit) :
    Nat → List ToolCall → Option String × List AFrame
  | _, [] => (none, [])
  | idx, tc :: rest =>
    let r := processToolUses parseArgs (idx + 1) rest
    match parseArgs tc.arguments with
    | .ok _ =>
      (r.1, AFrame.toolUseStart (idx + 1) tc.id tc.name ::
            AFrame.contentBlockStop (idx + 1) :: r.2)
    | .error e =>
      (r.1.orElse (fun _ => some e), r.2)

/-- The Anthropic callback body for one event. -/
def anthropicCbStep (parseArgs : String → Except String Unit)
    (st : AState) (e : CbEvent) : AState × List AFrame :=
  match cbEventContent e with
  | some c =>
    if c = "" then (st, [])
    else
      let starts := if st.contentStarted then [] else [AFrame.contentBlockStart 0]
      ({ st with contentStarted := true, accumulated := st.accumulated ++ c },
       starts ++ [AFrame.contentBlockDelta 0 c])
  | none =>
    match e with
    | .toolCalls tcs =>
      let r := processToolUses parseArgs 0 tcs
      ({ st with toolCalls := tcs,
                 parseError := r.1.orElse (fun _ => st.parseError) }, r.2)
    | _ => (st, [])

def anthropicCbFold (parseArgs : String → Except String Unit) (st : AState) :
    List CbEvent → AState × List AFrame
  | [] => (st, [])
  | e :: es =>
    let r1 := anthropicCbStep parseArgs st e
    let r2 := anthropicCbFold parseArgs r1.1 es
    (r2.1, r1.2 ++ r2.2)

/-- `stop_reason` / `stop_sequence` resolution of the Anthropic route.  Note
the `else if` chain: when `stop_sequences` is nonempty the `max_tokens`
branch is never reached, even if no sequence matches.  `outputTokens` is the
opaque `countTokensSafe` result for the output message. -/
def resolveStopReason (toolCalls : List ToolCall) (stopSequences : List String)
    (maxTokens : Option Nat) (outputTokens : Nat) (accumulated : String) :
    String × Option String :=
  match toolCalls with
  | _ :: _ => ("tool_use", none)
  | [] =>
    match stopSequences with
    | _ :: _ =>
      match stopSequences.find? (fun seq => accumulated.endsWith seq) with
      | some m => ("stop_sequence", some m)
      | none => ("end_turn", none)
    | [] =>
      match maxTokens with
      | some mt => if mt ≠ 0 ∧ mt ≤ outputTokens then ("max_tokens", none) else ("end_turn", none)
      | none => ("end_turn", none)

structure ARun where
  events : List CbEvent
  failure : Option String

/-- The complete frame list the Anthropic streaming path writes for a run:
`message_start` first; per-event frames; then — only when the upstream call
returned normally — either a single `event: error` (a recorded tool-argument
parse failure; `res.headersSent` is already true) or the closing
`content_block_stop`, `message_delta`, `message_stop`.  When the upstream
call threw, the catch block is guarded by `!res.headersSent`, which is
always true here, so nothing more is written. -/
def anthropicStreamFrames (parseArgs : String → Except String Unit)
    (stopSequences : List String) (maxTokens : Option Nat) (outputTokens : Nat)
    (run : ARun) : List AFrame :=
  let r := anthropicCbFold parseArgs ⟨false, "", [], none⟩ run.events
  AFrame.messageStart :: r.2 ++
    (match run.failure with
     | some _ => []
     | none =>
       match r.1.parseError with
       | some e => [AFrame.errorEvent e]
       | none =>
         (if r.1.contentStarted then [AFrame.contentBlockStop 0] else []) ++
         [AFrame.messageDelta
            (resolveStopReason r.1.toolCalls stopSequences maxTokens outputTokens
              r.1.accumulated).1,
          AFrame.messageStop])

def countOFrameDone (l : List OFrame) : Nat :=
  l.countP (fun f => match f with | .done => true | _ => false)

def countAFrameStop (l : List AFrame) : Nat :=
  l.countP (fun f => match f with | .messageStop => true | _ => false)


theorem countOFrameDone_append (l1 l2 : List OFrame) :
    countOFrameDone (l1 ++ l2) = countOFrameDone l1 + countOFrameDone l2 :=
  List.countP_append _ _ _

theorem countAFrameStop_append (l1 l2 : List AFrame) :
    countAFrameStop (l1 ++ l2) = countAFrameStop l1 + countAFrameStop l2 :=
  List.countP_append _ _ _

theorem countOFrameDone_eventFrames (events : List CbEvent) :
    countOFrameDone ((events.map openaiEventFrames).flatten) = 0 := by
  induction events with
  | nil => rfl
  | cons e es ih =>
    simp only [List.map_cons, List.flatten_cons, countOFrameDone_append, ih]
    cases e <;> simp [openaiEventFrames, countOFrameDone] <;> split <;> simp [countOFrameDone]

theorem countAFrameStop_cons_start (l : List AFrame) :
    countAFrameStop (AFrame.messageStart :: l) = countAFrameStop l := by
  simp [countAFrameStop, List.countP_cons]

theorem countAFrameStop_toolUses (parseArgs : String → Except String Unit) :
    ∀ (idx : Nat) (tcs : List ToolCall),
      countAFrameStop (processToolUses parseArgs idx tcs).2 = 0 := by
  intro idx tcs
  induction tcs generalizing idx with
  | nil => rfl
  | cons tc rest ih =>
    unfold processToolUses
    cases hp : parseArgs tc.arguments with
    | ok u =>
      dsimp only
      rw [countAFrameStop, List.countP_cons, List.countP_cons]
      have h2 := ih (idx + 1)
      rw [countAFrameStop] at h2
      rw [h2]
      rfl
    | error e =>
      dsimp only
      exact ih (idx + 1)

theorem countAFrameStop_step (parseArgs : String → Except String Unit)
    (st : AState) (e : CbEvent) :
    countAFrameStop (anthropicCbStep parseArgs st e).2 = 0 := by
  unfold anthropicCbStep
  cases he : cbEventContent e with
  | some c =>
    by_cases hc : c = "" <;> by_cases hcs : st.contentStarted <;>
      simp [hc, hcs, countAFrameStop]
  | none =>
    cases e with
    | toolCalls tcs => simpa using countAFrameStop_toolUses parseArgs 0 tcs
    | thinkingOpen => simp [cbEventContent] at he
    | thinkingDelta s => simp [cbEventContent] at he
    | thinkingClose => simp [cbEventContent] at he
    | text s => simp [cbEventContent] at he

theorem countAFrameStop_fold (parseArgs : String → Except String Unit) :
    ∀ (events : List CbEvent) (st : AState),
      countAFrameStop (anthropicCbFold parseArgs st events).2 = 0 := by
  intro events
  induction events with
  | nil => intro st; rfl
  | cons e es ih =>
    intro st
    unfold anthropicCbFold
    rw [countAFrameStop_append, countAFrameStop_step, ih]

/-- C4 (amended): the OpenAI stream ends with exactly one `data: [DONE]`
terminator when the upstream call returns normally, and also when it throws
before any frame has been written (the `!res.headersSent` error path); a
throw after the first frame leaves the stream with no terminator.  The
Anthropic stream ends with exactly one `event: message_stop` when the
upstream call returns normally and no tool-argument parse error was
recorded; a recorded parse error ends the stream with a single
`event: error` instead, and an upstream throw (after `message_start`,
which is always written first) leaves the stream with no terminator. -/
theorem C4_sse_termination
    (run : ORun) (parseArgs : String → Except String Unit)
    (stopSequences : List String) (maxTokens : Option Nat) (outputTokens : Nat)
    (arun : ARun) :
    (run.failure = none →
      (openaiStreamFrames run).getLast? = some OFrame.done ∧
      countOFrameDone (openaiStreamFrames run) = 1) ∧
    (∀ msg, run.failure = some msg →
      ((run.events.map openaiEventFrames).flatten = [] →
        (openaiStreamFrames run).getLast? = some OFrame.done ∧
        countOFrameDone (openaiStreamFrames run) = 1) ∧
      ((run.events.map openaiEventFrames).flatten ≠ [] →
        countOFrameDone (openaiStreamFrames run) = 0)) ∧
    (arun.failure = none →
      ((anthropicCbFold parseArgs ⟨false, "", [], none⟩ arun.events).1.parseError = none →
        (anthropicStreamFrames parseArgs stopSequences maxTokens outputTokens arun).getLast?
          = some AFrame.messageStop ∧
        countAFrameStop (anthropicStreamFrames parseArgs stopSequences maxTokens outputTokens arun) = 1) ∧
      (∀ e, (anthropicCbFold parseArgs ⟨false, "", [], none⟩ arun.events).1.parseError = some e →
        (anthropicStreamFrames parseArgs stopSequences maxTokens outputTokens arun).getLast?
          = some (AFrame.errorEvent e) ∧
        countAFrameStop (anthropicStreamFrames parseArgs stopSequences maxTokens outputTokens arun) = 0)) ∧
    (∀ msg, arun.failure = some msg →
      countAFrameStop (anthropicStreamFrames parseArgs stopSequences maxTokens outputTokens arun) = 0) := by
  refine ⟨?_, ?_, ?_, ?_⟩
  · intro hf
    unfold openaiStreamFrames
    rw [hf]
    constructor
    · rw [List.getLast?_append_of_ne_nil _ (by simp)]
      rfl
    · rw [countOFrameDone_append, countOFrameDone_eventFrames]
      rfl
  · intro msg hf
    constructor
    · intro hev
      unfold openaiStreamFrames
      rw [hf, hev]
      exact ⟨rfl, rfl⟩
    · intro hev
      unfold openaiStreamFrames
      rw [hf]
      dsimp only
      rw [if_neg (by simpa [List.isEmpty_iff] using hev)]
      exact countOFrameDone_eventFrames run.events
  · intro hf
    constructor
    · intro hpe
      unfold anthropicStreamFrames
      dsimp only
      rw [hf, hpe]
      dsimp only
      constructor
      · rw [List.getLast?_append_of_ne_nil _ (by simp)]
        rw [List.getLast?_append_of_ne_nil _ (by simp)]
        rfl
      · rw [countAFrameStop_append, countAFrameStop_cons_start, countAFrameStop_fold]
        rw [countAFrameStop_append]
        cases hcs : (anthropicCbFold parseArgs ⟨false, "", [], none⟩ arun.events).1.contentStarted <;>
          simp [countAFrameStop]
    · intro e hpe
      unfold anthropicStreamFrames
      dsimp only
      rw [hf, hpe]
      dsimp only
      constructor
      · rw [List.getLast?_append_of_ne_nil _ (by simp)]
        rfl
      · rw [countAFrameStop_append, countAFrameStop_cons_start, countAFrameStop_fold]
        rfl
  · intro msg hf
    unfold anthropicStreamFrames
    dsimp only
    rw [hf]
    dsimp only
    rw [List.append_nil, countAFrameStop_cons_start, countAFrameStop_fold]


/-- Witness for C4: a normally-completing OpenAI run with one text chunk
ends with exactly one `data: [DONE]`. -/
theorem C4_sse_termination_witness :
    (openaiStreamFrames ⟨[CbEvent.text "hi"], none⟩).getLast? = some OFrame.done ∧
    countOFrameDone (openaiStreamFrames ⟨[CbEvent.text "hi"], none⟩) = 1 :=
  (C4_sse_termination ⟨[CbEvent.text "hi"], none⟩ (fun _ => .ok ()) [] none 0
    ⟨[], none⟩).1 rfl

/-- C4 counterexample: the claim as stated is false — when the upstream call
throws after one content chunk has been written (a mid-stream failure, with
the client still connected), the catch block is skipped because
`res.headersSent` is true, and the OpenAI stream ends with no `data: [DONE]`
terminator at all. -/
theorem C4_counterexample :
    openaiStreamFrames ⟨[CbEvent.text "hi"], some "upstream interrupted"⟩
      = [OFrame.contentDelta "hi"] ∧
    countOFrameDone
      (openaiStreamFrames ⟨[CbEvent.text "hi"], some "upstream interrupted"⟩) = 0 :=
  ⟨rfl, rfl⟩


/-! ## API-key authorization and rate-limit middleware
(src/server/index.ts, the `app.use` handler for `/v1/*` and
`/anthropic/v1/*`)

`timingSafeEqual` is modelled as string equality (its constant-time
behaviour is not observable here).  The store is the `keysCache` list,
keyed by the key string. -/

/-- The middleware's decision, one constructor per response path, carrying
the `X-RateLimit-*` header values it sets and the 429 body fields. -/
inductive AuthOutcome where
  | unauthorizedNoConfig
  | adminPass
  | unauthorizedBadKey
  | rateLimited (limitHdr remainingHdr resetHdr : Nat)
      (bodyType : String) (bodyResetInSeconds : Option Nat)
  | passWithHeaders (limitHdr remainingHdr : Nat)
  | passNoHeaders
  deriving Repr, DecidableEq

/-- The middleware body for a request under `/v1/` or `/anthropic/v1/`:
reject when no admin key is configured; pass the admin key with no
rate-limit headers; reject unknown keys with 401; deny with 429 plus
`X-RateLimit-Limit` (`limit || 0`), `X-RateLimit-Remaining` (0) and
`X-RateLimit-Reset` (`resetIn || 0`) headers and the
`{error:{message, type:'rate_limit_exceeded', reset_in_seconds}}` body;
otherwise pass, setting `X-RateLimit-Limit`/`X-RateLimit-Remaining` only
when the limiter returned a `limit` field. -/
def authMiddleware (cfgKey : Option String) (provided : String)
    (keys : List (String × ApiKeyRec)) (now : Nat) :
    AuthOutcome × List (String × ApiKeyRec) :=
  match cfgKey with
  | none => (.unauthorizedNoConfig, keys)
  | some ak =>
    if provided = ak then (.adminPass, keys)
    else
      match keys.find? (fun p => p.1 = provided) with
      | none => (.unauthorizedBadKey, keys)
      | some kv =>
        let res := checkRateLimit kv.2 now
        let keys2 := keys.map (fun p => if p.1 = provided then (p.1, res.2) else p)
        if res.1.allowed = false then
          (.rateLimited (res.1.limit.getD 0) 0 (res.1.resetIn.getD 0)
            "rate_limit_exceeded" res.1.resetIn, keys2)
        else
          match res.1.limit with
          | some lim => (.passWithHeaders lim (res.1.remaining.getD 0), keys2)
          | none => (.passNoHeaders, keys2)

def outcomePasses : AuthOutcome → Bool
  | .adminPass => true
  | .passWithHeaders _ _ => true
  | .passNoHeaders => true
  | _ => false

def outcomeHasRateHeaders : AuthOutcome → Bool
  | .passWithHeaders _ _ => true
  | _ => false

/-- C7 (amended): a stored key whose limiter returns a `limit` (rate
limiting enabled) passes with `X-RateLimit-Limit`/`X-RateLimit-Remaining`
set from the limiter's values; a denial is a 429 carrying `X-RateLimit-Reset`
(in seconds) and the `{error:{message, type:"rate_limit_exceeded",
reset_in_seconds}}` body; but the admin-wide key and keys without a rate
limit pass with no `X-RateLimit-*` headers at all. -/
theorem C7_rate_limit_headers (ak provided : String)
    (keys : List (String × ApiKeyRec)) (now : Nat) (kv : String × ApiKeyRec)
    (hne : provided ≠ ak)
    (hfind : keys.find? (fun p => p.1 = provided) = some kv) :
    ((checkRateLimit kv.2 now).1.allowed = false →
      (authMiddleware (some ak) provided keys now).1
        = .rateLimited ((checkRateLimit kv.2 now).1.limit.getD 0) 0
            ((checkRateLimit kv.2 now).1.resetIn.getD 0)
            "rate_limit_exceeded" (checkRateLimit kv.2 now).1.resetIn) ∧
    (∀ lim, (checkRateLimit kv.2 now).1.allowed = true →
      (checkRateLimit kv.2 now).1.limit = some lim →
      (authMiddleware (some ak) provided keys now).1
        = .passWithHeaders lim ((checkRateLimit kv.2 now).1.remaining.getD 0)) ∧
    ((checkRateLimit kv.2 now).1.allowed = true →
      (checkRateLimit kv.2 now).1.limit = none →
      (authMiddleware (some ak) provided keys now).1 = .passNoHeaders) ∧
    (kv.2.rateLimit.enabled = false →
      (authMiddleware (some ak) provided keys now).1 = .passNoHeaders) ∧
    ((authMiddleware (some ak) ak keys now).1 = .adminPass) := by
  have hbase : ∀ (o : AuthOutcome × List (String × ApiKeyRec)), o = o := fun _ => rfl
  refine ⟨?_, ?_, ?_, ?_, ?_⟩
  · intro hdeny
    unfold authMiddleware
    dsimp only
    rw [if_neg hne, hfind]
    dsimp only
    rw [if_pos hdeny]
  · intro lim hallow hlim
    unfold authMiddleware
    dsimp only
    rw [if_neg hne, hfind]
    dsimp only
    rw [if_neg (by rw [hallow]; simp), hlim]
  · intro hallow hlim
    unfold authMiddleware
    dsimp only
    rw [if_neg hne, hfind]
    dsimp only
    rw [if_neg (by rw [hallow]; simp), hlim]
  · intro hdis
    unfold authMiddleware
    dsimp only
    rw [if_neg hne, hfind]
    dsimp only
    have hres : checkRateLimit kv.2 now =
        ({ allowed := true, limit := none, remaining := none, resetIn := none,
           errMsg := none }, kv.2) := by
      unfold checkRateLimit
      rw [hdis]
      rfl
    rw [hres]
    rfl
  · unfold authMiddleware
    dsimp only
    rw [if_pos rfl]

/-- Witness for C7: a stored key with an enabled `(2, 60000)` limit and
empty usage passes with `X-RateLimit-Limit = 2`, `X-RateLimit-Remaining = 1`. -/
theorem C7_rate_limit_headers_witness :
    (authMiddleware (some "admin") "k"
      [("k", ⟨⟨true, 2, 60000⟩, []⟩)] 0).1 = .passWithHeaders 2 1 :=
  ((C7_rate_limit_headers "admin" "k" [("k", ⟨⟨true, 2, 60000⟩, []⟩)] 0
      ("k", ⟨⟨true, 2, 60000⟩, []⟩) (by decide) (by decide)).2.1) 2 (by decide) (by decide)

/-- C7 counterexample: the claim as stated is false — a request authorized
with the admin-wide configured key, and one authorized with a stored key
whose rate limit is disabled, both pass authorization yet carry no
`X-RateLimit-Limit`/`X-RateLimit-Remaining` headers. -/
theorem C7_counterexample :
    outcomePasses (authMiddleware (some "admin") "admin" [] 0).1 = true ∧
    outcomeHasRateHeaders (authMiddleware (some "admin") "admin" [] 0).1 = false ∧
    outcomePasses (authMiddleware (some "admin") "k"
      [("k", ⟨⟨false, 100, 60000⟩, []⟩)] 0).1 = true ∧
    outcomeHasRateHeaders (authMiddleware (some "admin") "k"
      [("k", ⟨⟨false, 100, 60000⟩, []⟩)] 0).1 = false :=
  ⟨rfl, rfl, rfl, rfl⟩


/-! ## Credential pool and the upstream-403 path
(src/auth/token-manager.ts `disableCurrentToken`/`disableToken`/`loadTokens`,
src/api/client.ts `generateAssistantResponse` lines 25-32)

`this.tokens` (the rotation view) holds the same objects as the persisted
array, so `token.enable = false` mutates both; `loadTokens` re-filters the
view only when the 60-second reload interval has elapsed or the view is
empty (`reloadDue`). -/

structure Credential where
  accessToken : String
  refreshToken : String
  enable : Option Bool
  deriving Repr, DecidableEq

/-- `token.enable !== false`: an absent `enable` field counts as enabled. -/
def credEnabled (c : Credential) : Bool := c.enable ≠ some false

structure TokenManagerState where
  all : List Credential
  view : List Credential
  currentIndex : Nat
  deriving Repr, DecidableEq

/-- `disableCurrentToken`: find the credential in the rotation view by
access token; if found, set `enable = false` (mutating the shared object,
hence both lists), persist, and `loadTokens` — which re-filters the view
and clamps the cursor only when `reloadDue`. -/
def disableCurrentToken (st : TokenManagerState) (tok : Credential)
    (reloadDue : Bool) : TokenManagerState :=
  match st.view.find? (fun c => c.accessToken = tok.accessToken) with
  | none => st
  | some found =>
    let all2 := st.all.map (fun c =>
      if c.refreshToken = found.refreshToken then { c with enable := some false } else c)
    let view2 := st.view.map (fun c =>
      if c.refreshToken = found.refreshToken then { c with enable := some false } else c)
    if reloadDue then
      { all := all2, view := all2.filter credEnabled,
        currentIndex :=
          if (all2.filter credEnabled).length ≤ st.currentIndex then 0
          else st.currentIndex }
    else
      { all := all2, view := view2, currentIndex := st.currentIndex }

/-- The response handling of `generateAssistantResponse` as a function of
the HTTP status Upstream answered with: on 2xx the body is streamed through
the dispatcher; on 403 the current credential is disabled and an
account-disabled error is thrown; on other statuses an error with the
status is thrown.  There is no retry construct: the function returns at
most one outcome per call. -/
def clientOnResponse (st : TokenManagerState) (tok : Credential) (status : Nat)
    (errorText : String) (body : List UpData) (reloadDue : Bool) :
    TokenManagerState × Except String (List CbEvent) :=
  if 200 ≤ status ∧ status < 300 then
    (st, .ok (dispatcherEvents body))
  else if status = 403 then
    (disableCurrentToken st tok reloadDue,
     .error ("该账号没有使用权限，已自动禁用。错误详情: " ++ errorText))
  else
    (st, .error ("API请求失败 (" ++ Nat.repr status ++ "): " ++ errorText))

def isOkResult (r : Except String (List CbEvent)) : Bool :=
  match r with
  | .ok _ => true
  | .error _ => false

/-- C2 (amended): when Upstream rejects with HTTP 403 while a pooled
credential is in use, that credential is marked `enable = false` in the
persisted pool (and excluded from the rotation view once the pool reloads),
and the request itself fails with the account-disabled error — it is not
retried on another credential within the same call; only later requests
rotate to the remaining credentials. -/
theorem C2_upstream_forbidden (st : TokenManagerState) (tok fd : Credential)
    (errorText : String) (body : List UpData) (reloadDue : Bool)
    (hfind : st.view.find? (fun c => c.accessToken = tok.accessToken) = some fd) :
    (clientOnResponse st tok 403 errorText body reloadDue).2
      = .error ("该账号没有使用权限，已自动禁用。错误详情: " ++ errorText) ∧
    isOkResult (clientOnResponse st tok 403 errorText body reloadDue).2 = false ∧
    (∀ c ∈ (clientOnResponse st tok 403 errorText body reloadDue).1.all,
      c.refreshToken = fd.refreshToken → c.enable = some false) ∧
    (reloadDue = true →
      (clientOnResponse st tok 403 errorText body reloadDue).1.view
        = ((clientOnResponse st tok 403 errorText body reloadDue).1.all).filter
            credEnabled) := by
  have h403 : ¬ (200 ≤ 403 ∧ 403 < 300) := by omega
  have hstep : clientOnResponse st tok 403 errorText body reloadDue
      = (disableCurrentToken st tok reloadDue,
         .error ("该账号没有使用权限，已自动禁用。错误详情: " ++ errorText)) := by
    unfold clientOnResponse
    rw [if_neg h403, if_pos rfl]
  rw [hstep]
  refine ⟨rfl, rfl, ?_, ?_⟩
  · intro c hc hrt
    unfold disableCurrentToken at hc
    rw [hfind] at hc
    dsimp only at hc
    by_cases hr : reloadDue
    · rw [if_pos hr] at hc
      dsimp only at hc
      rcases List.mem_map.mp hc with ⟨c0, _, hc0⟩
      by_cases hc0r : c0.refreshToken = fd.refreshToken
      · rw [if_pos hc0r] at hc0
        rw [← hc0]
      · rw [if_neg hc0r] at hc0
        rw [← hc0] at hrt
        exact absurd hrt hc0r
    · rw [if_neg hr] at hc
      dsimp only at hc
      rcases List.mem_map.mp hc with ⟨c0, _, hc0⟩
      by_cases hc0r : c0.refreshToken = fd.refreshToken
      · rw [if_pos hc0r] at hc0
        rw [← hc0]
      · rw [if_neg hc0r] at hc0
        rw [← hc0] at hrt
        exact absurd hrt hc0r
  · intro hr
    unfold disableCurrentToken
    rw [hfind]
    dsimp only
    rw [if_pos hr]


/-- Witness for C2 on the spec's own scenario pool `[A, B]`: a 403 while
using `A` disables `A` (persisted), the reloaded view is `[B]`, and the
call fails with the account-disabled error. -/
theorem C2_upstream_forbidden_witness :
    (clientOnResponse
        ⟨[⟨"tokA", "rtA", none⟩, ⟨"tokB", "rtB", none⟩],
         [⟨"tokA", "rtA", none⟩, ⟨"tokB", "rtB", none⟩], 0⟩
        ⟨"tokA", "rtA", none⟩ 403 "forbidden" [] true).2
      = .error "该账号没有使用权限，已自动禁用。错误详情: forbidden" :=
  (C2_upstream_forbidden
    ⟨[⟨"tokA", "rtA", none⟩, ⟨"tokB", "rtB", none⟩],
     [⟨"tokA", "rtA", none⟩, ⟨"tokB", "rtB", none⟩], 0⟩
    ⟨"tokA", "rtA", none⟩ ⟨"tokA", "rtA", none⟩ "forbidden" [] true (by decide)).1

/-- C2 counterexample: the claim as stated is false — on the `[A, B]` pool
with both credentials enabled, an upstream 403 while using `A` does disable
`A`, but the request is not retried with `B`: `generateAssistantResponse`
throws, so the call does not complete with a served response. -/
theorem C2_counterexample :
    (clientOnResponse
        ⟨[⟨"tokA", "rtA", none⟩, ⟨"tokB", "rtB", none⟩],
         [⟨"tokA", "rtA", none⟩, ⟨"tokB", "rtB", none⟩], 0⟩
        ⟨"tokA", "rtA", none⟩ 403 "forbidden" [] true)
      = (⟨[⟨"tokA", "rtA", some false⟩, ⟨"tokB", "rtB", none⟩],
          [⟨"tokB", "rtB", none⟩], 0⟩,
         .error "该账号没有使用权限，已自动禁用。错误详情: forbidden") ∧
    isOkResult
      (clientOnResponse
        ⟨[⟨"tokA", "rtA", none⟩, ⟨"tokB", "rtB", none⟩],
         [⟨"tokA", "rtA", none⟩, ⟨"tokB", "rtB", none⟩], 0⟩
        ⟨"tokA", "rtA", none⟩ 403 "forbidden" [] true).2 = false := by
  constructor
  · rfl
  · rfl


/-- Bridge between the executable `List.isPrefixOf` and the `<+:` relation. -/
theorem isPrefixOfIff {l1 l2 : List Char} : l1.isPrefixOf l2 = true ↔ l1 <+: l2 :=
  List.isPrefixOf_iff_prefix

/-! ## Thought-signature lift (src/utils/utils.ts `handleAssistantMessage`,
src/api/client.ts sentinel append)

`text.match(/<!-- thought_signature: (.+?) -->/)` is modelled by
`findSigSplit`: the engine scans start positions left to right, anchors on
the literal opener, and the lazy `(.+?)` takes the shortest nonempty run of
non-newline characters (`.` does not match a newline) followed by the
literal `" -->"` closer; on failure at a start position the engine moves
one character right.  `text.replace(match[0], '')` removes the first
occurrence of the full matched substring (`jsReplaceFirst`). -/
def markerChars : List Char := "<!-- thought_signature: ".data

def termChars : List Char := " -->".data

/-- The lazy body: consume accumulated characters until the closer matches
(checked before consuming the next character); fail on a newline or at end
of input. -/
def scanGo : List Char → List Char → Option (List Char × List Char)
  | _, [] => none
  | acc, c :: r =>
    if termChars.isPrefixOf (c :: r) then some (acc.reverse, (c :: r).drop termChars.length)
    else if c = '\n' then none
    else scanGo (c :: acc) r

def scanLazy : List Char → Option (List Char × List Char)
  | [] => none
  | c :: r => if c = '\n' then none else scanGo [c] r

/-- First match of the sentinel regex: `some (pre, X, post)` when the input
is `pre ++ opener ++ X ++ closer ++ post` at the first start position where
the whole regex matches. -/
def findSigSplit : List Char → Option (List Char × List Char × List Char)
  | [] => none
  | c :: rest =>
    if markerChars.isPrefixOf (c :: rest) then
      match scanLazy ((c :: rest).drop markerChars.length) with
      | some (x, post) => some ([], x, post)
      | none =>
        match findSigSplit rest with
        | some (pre, x, post) => some (c :: pre, x, post)
        | none => none
    else
      match findSigSplit rest with
      | some (pre, x, post) => some (c :: pre, x, post)
      | none => none

/-- `String.prototype.replace` with a plain-string needle: remove the first
occurrence. -/
def jsReplaceFirst : List Char → List Char → List Char
  | [], _ => []
  | c :: rest, pat =>
    if pat.isPrefixOf (c :: rest) then (c :: rest).drop pat.length
    else c :: jsReplaceFirst rest pat




theorem scanGo_sound :
    ∀ (rest acc xres post : List Char),
      scanGo acc rest = some (xres, post) →
      ∃ xr, rest = xr ++ termChars ++ post ∧ xres = acc.reverse ++ xr ∧
        (∀ c ∈ xr, c ≠ '\n') := by
  intro rest
  induction rest with
  | nil => intro acc xres post h; cases h
  | cons c r ih =>
    intro acc xres post h
    unfold scanGo at h
    by_cases hterm : termChars.isPrefixOf (c :: r)
    · rw [if_pos hterm] at h
      injection h with h2
      injection h2 with ha hb
      rcases isPrefixOfIff.mp hterm with ⟨tail, htail⟩
      have hdrop : (c :: r).drop termChars.length = tail := by
        rw [← htail, List.drop_left]
      have hpt : tail = post := by rw [← hdrop, hb]
      refine ⟨[], ?_, ?_, ?_⟩
      · rw [List.nil_append, ← htail, hpt]
      · rw [← ha]; simp
      · intro d hd; cases hd
    · rw [if_neg hterm] at h
      by_cases hnl : c = '\n'
      · rw [if_pos hnl] at h; cases h
      · rw [if_neg hnl] at h
        rcases ih (c :: acc) xres post h with ⟨xr, h1, h2, h3⟩
        refine ⟨c :: xr, ?_, ?_, ?_⟩
        · simp [h1]
        · rw [h2]; simp
        · intro d hd
          rcases List.mem_cons.mp hd with h4 | h4
          · rw [h4]; exact hnl
          · exact h3 d h4



theorem scanLazy_sound (l x post : List Char) (h : scanLazy l = some (x, post)) :
    l = x ++ termChars ++ post ∧ x ≠ [] ∧ (∀ c ∈ x, c ≠ '\n') := by
  match l, h with
  | c :: r, h =>
    unfold scanLazy at h
    dsimp only at h
    by_cases hnl : c = '\n'
    · rw [if_pos hnl] at h; cases h
    · rw [if_neg hnl] at h
      rcases scanGo_sound r [c] x post h with ⟨xr, h1, h2, h3⟩
      simp only [List.reverse_singleton] at h2
      refine ⟨?_, ?_, ?_⟩
      · rw [h2, h1]; simp
      · rw [h2]; simp
      · intro d hd
        rw [h2] at hd
        rcases List.mem_cons.mp hd with h4 | h4
        · rw [h4]; exact hnl
        · exact h3 d h4

theorem scanGo_succeeds :
    ∀ (xr acc tail : List Char), (∀ c ∈ xr, c ≠ '\n') →
      ∃ r, scanGo acc (xr ++ termChars ++ tail) = some r := by
  intro xr
  induction xr with
  | nil =>
    intro acc tail _
    refine ⟨(acc.reverse, tail), ?_⟩
    simp only [List.nil_append]
    have hpre : termChars.isPrefixOf (termChars ++ tail) = true :=
      isPrefixOfIff.mpr ⟨tail, rfl⟩
    match hterm : termChars ++ tail with
    | [] => simp [termChars] at hterm
    | c :: r =>
      unfold scanGo
      rw [← hterm, if_pos hpre, List.drop_left]
  | cons c xr ih =>
    intro acc tail hnl
    have hc : c ≠ '\n' := hnl c (List.mem_cons_self c xr)
    by_cases hterm : termChars.isPrefixOf (c :: (xr ++ termChars ++ tail))
    · refine ⟨(acc.reverse, (c :: (xr ++ termChars ++ tail)).drop termChars.length), ?_⟩
      show scanGo acc (c :: (xr ++ termChars ++ tail)) = _
      unfold scanGo
      rw [if_pos hterm]
    · rcases ih (c :: acc) tail (fun d hd => hnl d (List.mem_cons_of_mem c hd)) with ⟨r, hr⟩
      refine ⟨r, ?_⟩
      show scanGo acc (c :: (xr ++ termChars ++ tail)) = _
      unfold scanGo
      rw [if_neg hterm, if_neg hc]
      exact hr

theorem scanLazy_succeeds (x tail : List Char) (hx : x ≠ []) (hnl : ∀ c ∈ x, c ≠ '\n') :
    ∃ r, scanLazy (x ++ termChars ++ tail) = some r := by
  match x, hx with
  | c :: xr, _ =>
    have hc : c ≠ '\n' := hnl c (List.mem_cons_self c xr)
    rcases scanGo_succeeds xr [c] tail (fun d hd => hnl d (List.mem_cons_of_mem c hd)) with ⟨r, hr⟩
    refine ⟨r, ?_⟩
    show scanLazy (c :: (xr ++ termChars ++ tail)) = _
    unfold scanLazy
    dsimp only
    rw [if_neg hc]
    exact hr



theorem findSigSplit_sound :
    ∀ (s pre x post : List Char),
      findSigSplit s = some (pre, x, post) →
      s = pre ++ markerChars ++ x ++ termChars ++ post ∧
      x ≠ [] ∧ (∀ c ∈ x, c ≠ '\n') ∧
      (∀ p1 p2, pre = p1 ++ p2 → p2 ≠ [] →
        ¬ (markerChars.isPrefixOf (p2 ++ markerChars ++ x ++ termChars ++ post) = true ∧
           (scanLazy ((p2 ++ markerChars ++ x ++ termChars ++ post).drop
              markerChars.length)).isSome = true)) := by
  intro s
  induction s with
  | nil => intro pre x post h; cases h
  | cons c rest ih =>
    intro pre x post h
    unfold findSigSplit at h
    by_cases hm : markerChars.isPrefixOf (c :: rest)
    · rw [if_pos hm] at h
      cases hscan : scanLazy ((c :: rest).drop markerChars.length) with
      | some xp =>
        rw [hscan] at h
        injection h with h2
        injection h2 with hpre h3
        injection h3 with hx hpost
        subst hpre
        rcases isPrefixOfIff.mp hm with ⟨tail, htail⟩
        have hdrop : (c :: rest).drop markerChars.length = tail := by
          rw [← htail, List.drop_left]
        rw [hdrop] at hscan
        have hsound := scanLazy_sound tail xp.1 xp.2 hscan
        refine ⟨?_, ?_, ?_, ?_⟩
        · rw [List.nil_append, ← htail, hsound.1, hx, hpost]
          simp
        · rw [← hx]; exact hsound.2.1
        · rw [← hx]; exact fun d hd => hsound.2.2 d hd
        · intro p1 p2 hp hne
          exact absurd (List.append_eq_nil.mp hp.symm).2 hne
      | none =>
        rw [hscan] at h
        cases hrec : findSigSplit rest with
        | none => rw [hrec] at h; cases h
        | some pxp =>
          rw [hrec] at h
          match pxp, hrec with
          | (pre2, x2, post2), hrec =>
            dsimp only at h
            injection h with h2
            injection h2 with hpre h3
            injection h3 with hx hpost
            subst hx
            subst hpost
            rcases ih pre2 x2 post2 hrec with ⟨hstruct, hxne, hxnl, hnomatch⟩
            refine ⟨?_, hxne, hxnl, ?_⟩
            · rw [← hpre]
              simp [hstruct]
            · intro p1 p2 hp hne
              match p1, hp with
              | [], hp =>
                rw [List.nil_append] at hp
                rw [← hp, ← hpre]
                intro hcontra
                have hseq : (c :: pre2) ++ markerChars ++ x2 ++ termChars ++ post2
                    = c :: rest := by
                  simp [hstruct]
                rw [hseq] at hcontra
                rw [hscan] at hcontra
                simp at hcontra
              | d :: p1t, hp =>
                rw [← hpre] at hp
                injection hp with hd hrest
                exact hnomatch p1t p2 hrest hne
    · rw [if_neg hm] at h
      cases hrec : findSigSplit rest with
      | none => rw [hrec] at h; cases h
      | some pxp =>
        rw [hrec] at h
        match pxp, hrec with
        | (pre2, x2, post2), hrec =>
          dsimp only at h
          injection h with h2
          injection h2 with hpre h3
          injection h3 with hx hpost
          subst hx
          subst hpost
          rcases ih pre2 x2 post2 hrec with ⟨hstruct, hxne, hxnl, hnomatch⟩
          refine ⟨?_, hxne, hxnl, ?_⟩
          · rw [← hpre]
            simp [hstruct]
          · intro p1 p2 hp hne
            match p1, hp with
            | [], hp =>
              rw [List.nil_append] at hp
              rw [← hp, ← hpre]
              intro hcontra
              have hseq : (c :: pre2) ++ markerChars ++ x2 ++ termChars ++ post2
                  = c :: rest := by
                simp [hstruct]
              rw [hseq] at hcontra
              exact hm hcontra.1
            | d :: p1t, hp =>
              rw [← hpre] at hp
              injection hp with hd hrest
              exact hnomatch p1t p2 hrest hne



theorem replaceFirst_no_early :
    ∀ (pre pat post : List Char),
      (∀ p1 p2, pre = p1 ++ p2 → p2 ≠ [] →
        ¬ pat.isPrefixOf (p2 ++ pat ++ post) = true) →
      jsReplaceFirst (pre ++ pat ++ post) pat = pre ++ post := by
  intro pre
  induction pre with
  | nil =>
    intro pat post _
    simp only [List.nil_append]
    match hs : pat ++ post with
    | [] =>
      rcases List.append_eq_nil.mp hs with ⟨h1, h2⟩
      rw [h1, h2]
      rfl
    | c :: r =>
      unfold jsReplaceFirst
      rw [← hs]
      have hpre : pat.isPrefixOf (pat ++ post) = true :=
        isPrefixOfIff.mpr ⟨post, rfl⟩
      rw [if_pos hpre, List.drop_left]
  | cons c pre2 ih =>
    intro pat post hno
    have hnotpre : ¬ pat.isPrefixOf ((c :: pre2) ++ pat ++ post) = true :=
      hno [] (c :: pre2) rfl (by simp)
    rw [List.cons_append, List.cons_append]
    unfold jsReplaceFirst
    rw [if_neg (by simpa using hnotpre)]
    rw [ih pat post (fun p1 p2 hp hne => hno (c :: p1) p2 (by rw [hp]; rfl) hne)]
    rw [List.cons_append]

theorem marker_prefix_of_pat {x post p2 tail : List Char}
    (heq : p2 ++ (markerChars ++ x ++ termChars) ++ post
      = (markerChars ++ x ++ termChars) ++ tail) :
    p2 ++ markerChars ++ x ++ termChars ++ post
      = markerChars ++ (x ++ termChars ++ tail) := by
  have h2 : p2 ++ markerChars ++ x ++ termChars ++ post
      = p2 ++ (markerChars ++ x ++ termChars) ++ post := by simp
  rw [h2, heq]
  simp

theorem jsReplaceFirst_of_findSigSplit (s pre x post : List Char)
    (h : findSigSplit s = some (pre, x, post)) :
    jsReplaceFirst s (markerChars ++ x ++ termChars) = pre ++ post := by
  rcases findSigSplit_sound s pre x post h with ⟨hstruct, hxne, hxnl, hnomatch⟩
  have hs2 : s = pre ++ (markerChars ++ x ++ termChars) ++ post := by
    rw [hstruct]; simp
  rw [hs2]
  apply replaceFirst_no_early
  intro p1 p2 hp hne hpref
  rcases isPrefixOfIff.mp hpref with ⟨tail, htail⟩
  have heq := marker_prefix_of_pat htail.symm
  refine hnomatch p1 p2 hp hne ⟨?_, ?_⟩
  · rw [heq]
    exact isPrefixOfIff.mpr ⟨x ++ termChars ++ tail, rfl⟩
  · rw [heq, List.drop_left]
    rcases scanLazy_succeeds x tail hxne hxnl with ⟨r, hr⟩
    rw [hr]
    rfl



theorem marker_no_newline : ∀ c ∈ markerChars, c ≠ '\n' := by decide

theorem marker_no_straddle (p2 rest : List Char)
    (hp : ¬ markerChars.isPrefixOf p2 = true) :
    ¬ markerChars.isPrefixOf (p2 ++ '\n' :: rest) = true := by
  intro hpref
  rcases isPrefixOfIff.mp hpref with ⟨u, hu⟩
  by_cases hlen : markerChars.length ≤ p2.length
  · apply hp
    apply isPrefixOfIff.mpr
    exact List.prefix_of_prefix_length_le ⟨u, hu⟩ (List.prefix_append p2 _) hlen
  · push_neg at hlen
    have e1 : (p2 ++ '\n' :: rest).take (p2.length + 1) = p2 ++ ['\n'] := by
      rw [List.take_append]
      rfl
    have e2 : (markerChars ++ u).take (p2.length + 1)
        = markerChars.take (p2.length + 1) :=
      List.take_append_of_le_length (by omega)
    have e3 : markerChars.take (p2.length + 1) = p2 ++ ['\n'] := by
      rw [← e2, hu, e1]
    have hmem : '\n' ∈ markerChars := by
      have : '\n' ∈ markerChars.take (p2.length + 1) := by
        rw [e3]; simp
      exact List.take_subset _ _ this
    exact marker_no_newline '\n' hmem rfl

theorem scanGo_exact :
    ∀ (xr acc : List Char), (∀ c ∈ xr, c ≠ '\n') →
      (∀ s, s <:+ xr → s ≠ [] → ¬ termChars.isPrefixOf (s ++ termChars) = true) →
      scanGo acc (xr ++ termChars) = some (acc.reverse ++ xr, []) := by
  intro xr
  induction xr with
  | nil =>
    intro acc _ _
    simp only [List.nil_append, List.append_nil]
    match hterm : termChars with
    | [] => simp [termChars] at hterm
    | c :: r =>
      unfold scanGo
      rw [if_pos (by rw [← hterm]
                     exact isPrefixOfIff.mpr ⟨[], by simp⟩)]
      rw [← hterm]
      simp
  | cons c xr2 ih =>
    intro acc hnl hterm
    have hc : c ≠ '\n' := hnl c (List.mem_cons_self c xr2)
    have hnot : ¬ termChars.isPrefixOf ((c :: xr2) ++ termChars) = true :=
      hterm (c :: xr2) (List.suffix_refl _) (by simp)
    rw [List.cons_append]
    unfold scanGo
    rw [if_neg (by simpa using hnot), if_neg hc]
    rw [ih (c :: acc) (fun d hd => hnl d (List.mem_cons_of_mem c hd))
        (fun s hs hne => hterm s (hs.trans (List.suffix_cons c xr2)) hne)]
    simp

theorem scanLazy_exact (X : List Char) (hX : X ≠ []) (hnl : ∀ c ∈ X, c ≠ '\n')
    (hterm : ∀ s, s <:+ X → s ≠ [] → s.length < X.length →
      ¬ termChars.isPrefixOf (s ++ termChars) = true) :
    scanLazy (X ++ termChars) = some (X, []) := by
  match X, hX with
  | c :: xr, _ =>
    have hc : c ≠ '\n' := hnl c (List.mem_cons_self c xr)
    rw [List.cons_append]
    unfold scanLazy
    dsimp only
    rw [if_neg hc]
    rw [scanGo_exact xr [c] (fun d hd => hnl d (List.mem_cons_of_mem c hd))
        (fun s hs hne => hterm s (hs.trans (List.suffix_cons c xr)) hne
          (by
            rcases hs with ⟨w, hw⟩
            have : w.length + s.length = xr.length := by
              rw [← List.length_append, hw]
            simp only [List.length_cons]
            omega))]
    simp



theorem findSigSplit_construct :
    ∀ (t X : List Char),
      (∀ p1 p2, t = p1 ++ p2 → ¬ markerChars.isPrefixOf p2 = true) →
      X ≠ [] → (∀ c ∈ X, c ≠ '\n') →
      (∀ s, s <:+ X → s ≠ [] → s.length < X.length →
        ¬ termChars.isPrefixOf (s ++ termChars) = true) →
      findSigSplit (t ++ '\n' :: (markerChars ++ X ++ termChars))
        = some (t ++ ['\n'], X, []) := by
  intro t
  induction t with
  | nil =>
    intro X hmf hX hnl hterm
    simp only [List.nil_append]
    have hnm : ¬ markerChars.isPrefixOf ('\n' :: (markerChars ++ X ++ termChars)) = true :=
      marker_no_straddle [] _ (by decide)
    unfold findSigSplit
    rw [if_neg hnm]
    have hrec : findSigSplit (markerChars ++ X ++ termChars) = some ([], X, []) := by
      have hm2 : markerChars ++ X ++ termChars = markerChars ++ (X ++ termChars) := by simp
      rw [hm2]
      match hmark : markerChars ++ (X ++ termChars) with
      | [] => simp [markerChars] at hmark
      | c :: r =>
        unfold findSigSplit
        rw [← hmark]
        rw [if_pos (isPrefixOfIff.mpr ⟨X ++ termChars, rfl⟩)]
        rw [List.drop_left]
        rw [scanLazy_exact X hX hnl hterm]
    rw [hrec]
  | cons c t2 ih =>
    intro X hmf hX hnl hterm
    have hnm : ¬ markerChars.isPrefixOf
        ((c :: t2) ++ '\n' :: (markerChars ++ X ++ termChars)) = true := by
      apply marker_no_straddle
      exact hmf [] (c :: t2) rfl
    rw [List.cons_append]
    unfold findSigSplit
    rw [if_neg (by simpa using hnm)]
    rw [ih X (fun p1 p2 hp => hmf (c :: p1) p2 (by rw [hp]; rfl)) hX hnl hterm]
    simp



inductive OpenAIContentItem where
  | text (s : String)
  | imageUrl (url : String)
  deriving Repr, DecidableEq

inductive OpenAIContent where
  | str (s : String)
  | parts (items : List OpenAIContentItem)
  | nullContent
  deriving Repr, DecidableEq

structure OpenAIToolCallReq where
  id : String
  name : String
  arguments : String
  deriving Repr, DecidableEq

structure AssistantMessage where
  content : OpenAIContent
  toolCalls : List OpenAIToolCallReq
  deriving Repr, DecidableEq

inductive AgPart where
  | textPart (text : String) (thoughtSignature : Option String)
  | functionCallPart (id name query : String)
  deriving Repr, DecidableEq

structure AgMessage where
  role : String
  parts : List AgPart
  deriving Repr, DecidableEq

/-- The `contentText` accumulation: a string content is taken whole; an
array content concatenates its `text` items. -/
def contentTextOf : OpenAIContent → String
  | .str s => s
  | .parts items =>
    items.foldl (fun acc it =>
      match it with
      | .text s => acc ++ s
      | _ => acc) ""
  | .nullContent => ""

/-- The text part built for an assistant message with content: if the
sentinel regex matches, the signature is lifted onto the part and the
matched substring is removed and the result trimmed; otherwise the content
is passed through untouched. -/
def assistantTextPart (contentText : String) : AgPart :=
  match findSigSplit contentText.data with
  | some (_, x, _) =>
    .textPart (String.mk (jsTrim (jsReplaceFirst contentText.data
        (markerChars ++ x ++ termChars)))) (some (String.mk x))
  | none => .textPart contentText none

/-- `handleAssistantMessage`: merge tool-call parts onto a trailing model
message when the new assistant message has tool calls but no content;
otherwise push a new model message with the (signature-processed) text part
followed by the tool-call parts. -/
def handleAssistantMessage (msg : AssistantMessage) (acc : List AgMessage) :
    List AgMessage :=
  let contentText := contentTextOf msg.content
  let hasToolCalls := !msg.toolCalls.isEmpty
  let hasContent := !(jsTrim contentText.data).isEmpty
  let tools := msg.toolCalls.map (fun tc =>
    AgPart.functionCallPart tc.id tc.name tc.arguments)
  let pushed : List AgMessage :=
    acc ++ [{ role := "model",
              parts := (if hasContent then [assistantTextPart contentText] else [])
                ++ tools }]
  match acc.getLast? with
  | some last =>
    if last.role = "model" && hasToolCalls && !hasContent then
      acc.dropLast ++ [{ last with parts := last.parts ++ tools }]
    else pushed
  | none => pushed




theorem jsTrim_dropWhile_eq {l : List Char} (hfix : jsTrim l = l) :
    l.dropWhile isJsWhitespace = l ∧
    (l.reverse).dropWhile isJsWhitespace = l.reverse := by
  unfold jsTrim at hfix
  have hlen2 : ((l.dropWhile isJsWhitespace).reverse.dropWhile
      isJsWhitespace).length = l.length := by
    have := congrArg List.length hfix
    simpa using this
  have hs1 : l.dropWhile isJsWhitespace <:+ l := List.dropWhile_suffix _
  have hlen1 : (l.dropWhile isJsWhitespace).length = l.length := by
    have hle1 := hs1.length_le
    have hle2 : ((l.dropWhile isJsWhitespace).reverse.dropWhile
        isJsWhitespace).length ≤ (l.dropWhile isJsWhitespace).length := by
      have := (List.dropWhile_suffix
        (l := (l.dropWhile isJsWhitespace).reverse) (p := isJsWhitespace)).length_le
      simpa using this
    omega
  have hd1 : l.dropWhile isJsWhitespace = l := hs1.eq_of_length hlen1
  refine ⟨hd1, ?_⟩
  have hs2 : l.reverse.dropWhile isJsWhitespace <:+ l.reverse := List.dropWhile_suffix _
  have hlen3 : (l.reverse.dropWhile isJsWhitespace).length = l.reverse.length := by
    rw [hd1] at hlen2
    have := hlen2
    simpa using this
  exact hs2.eq_of_length hlen3

theorem jsTrim_append_newline {l : List Char} (hfix : jsTrim l = l) :
    jsTrim (l ++ ['\n']) = l := by
  match l with
  | [] => rfl
  | c :: l2 =>
    rcases jsTrim_dropWhile_eq hfix with ⟨hd1, hd2⟩
    have hcw : isJsWhitespace c = false := by
      by_cases hw : isJsWhitespace c = true
      · exfalso
        have := hd1
        rw [List.dropWhile_cons, if_pos hw] at this
        have hlen := congrArg List.length this
        have hsub := (List.dropWhile_suffix (l := l2) (p := isJsWhitespace)).length_le
        simp at hlen
        omega
      · simpa using hw
    unfold jsTrim
    have h1 : ((c :: l2) ++ ['\n']).dropWhile isJsWhitespace
        = (c :: l2) ++ ['\n'] := by
      rw [List.cons_append, List.dropWhile_cons, if_neg (by simp [hcw])]
    rw [h1]
    have h2 : ((c :: l2) ++ ['\n']).reverse = '\n' :: (c :: l2).reverse := by
      simp
    rw [h2, List.dropWhile_cons, if_pos (by decide)]
    rw [hd2]
    simp

theorem jsTrim_ne_nil_of_mem {l : List Char} {c : Char}
    (hc : c ∈ l) (hw : isJsWhitespace c = false) : jsTrim l ≠ [] := by
  intro hnil
  unfold jsTrim at hnil
  have h2 : (l.dropWhile isJsWhitespace).reverse.dropWhile isJsWhitespace = [] := by
    have := congrArg List.reverse hnil
    simpa using this
  have hall2 : ∀ d ∈ (l.dropWhile isJsWhitespace).reverse, isJsWhitespace d = true :=
    fun d hd => List.dropWhile_eq_nil_iff.mp h2 d hd
  have hall1 : ∀ d ∈ l.dropWhile isJsWhitespace, isJsWhitespace d = true :=
    fun d hd => hall2 d (List.mem_reverse.mpr hd)
  have halll : ∀ d ∈ l, isJsWhitespace d = true := by
    intro d hd
    rw [← List.takeWhile_append_dropWhile (p := isJsWhitespace) (l := l)] at hd
    rcases List.mem_append.mp hd with h3 | h3
    · exact List.mem_takeWhile_imp h3
    · exact hall1 d h3
  rw [halll c hc] at hw
  cases hw



/-- Decidable form: the sentinel opener occurs nowhere in `l`. -/
def markerFreeB (l : List Char) : Bool :=
  (List.range (l.length + 1)).all (fun i => !(markerChars.isPrefixOf (l.drop i)))

/-- Decidable form: the closer `" -->"` matches at no proper nonempty
suffix position inside `x` (so the lazy capture takes all of `x`). -/
def termSafeB (x : List Char) : Bool :=
  (List.range x.length).all (fun i =>
    i = 0 || !(termChars.isPrefixOf (x.drop i ++ termChars)))

theorem markerFreeB_spec {l : List Char} (h : markerFreeB l = true) :
    ∀ p1 p2, l = p1 ++ p2 → ¬ markerChars.isPrefixOf p2 = true := by
  intro p1 p2 hsplit
  have hlen : p1.length ≤ l.length := by
    rw [hsplit, List.length_append]
    omega
  have hmem : p1.length ∈ List.range (l.length + 1) := List.mem_range.mpr (by omega)
  have := List.all_eq_true.mp h _ hmem
  simp only [Bool.not_eq_true'] at this
  have hdrop : l.drop p1.length = p2 := by
    rw [hsplit, List.drop_left]
  rw [hdrop] at this
  simp [this]

theorem termSafeB_spec {x : List Char} (h : termSafeB x = true) :
    ∀ s, s <:+ x → s ≠ [] → s.length < x.length →
      ¬ termChars.isPrefixOf (s ++ termChars) = true := by
  intro s hs hne hlt
  rcases hs with ⟨w, hw⟩
  have hwlen : w.length + s.length = x.length := by
    rw [← List.length_append, hw]
  have hslen : 0 < s.length := List.length_pos.mpr hne
  have hi : w.length ∈ List.range x.length := List.mem_range.mpr (by omega)
  have hall := List.all_eq_true.mp h _ hi
  have hiz : (decide (w.length = 0)) = false := by
    have : w.length ≠ 0 := by omega
    simp [this]
  rw [hiz, Bool.false_or] at hall
  simp only [Bool.not_eq_true'] at hall
  have hdrop : x.drop w.length = s := by
    rw [← hw, List.drop_left]
  rw [hdrop] at hall
  simp [hall]

/-- C8 (amended): for an assistant text carrying the sentinel suffix the
dispatcher appends (`t ++ "\n<!-- thought_signature: X -->"`), the
translator produces a model part with `thought_signature = X` and text
equal to the sentinel-stripped content with surrounding whitespace trimmed
— which inverts the dispatcher exactly when the original text `t` is
already trimmed and sentinel-free (and `X` is a nonempty newline-free
string in which the closer does not occur early). -/
theorem C8_thought_signature (t X : String) (acc : List AgMessage)
    (hmfb : markerFreeB t.data = true)
    (htrim : jsTrim t.data = t.data)
    (hX : X.data ≠ []) (hnl : ∀ c ∈ X.data, c ≠ '\n')
    (htermb : termSafeB X.data = true) :
    handleAssistantMessage
      ⟨.str (t ++ "\n<!-- thought_signature: " ++ X ++ " -->"), []⟩ acc
      = acc ++ [⟨"model", [.textPart t (some X)]⟩] := by
  have hmf := markerFreeB_spec hmfb
  have hterm := termSafeB_spec htermb
  have hdata : (t ++ "\n<!-- thought_signature: " ++ X ++ " -->").data
      = t.data ++ '\n' :: (markerChars ++ X.data ++ termChars) := by
    simp only [String.data_append]
    simp [markerChars, termChars]
  have hsplit : findSigSplit
      (t ++ "\n<!-- thought_signature: " ++ X ++ " -->").data
      = some (t.data ++ ['\n'], X.data, []) := by
    rw [hdata]
    exact findSigSplit_construct t.data X.data hmf hX hnl hterm
  have hreplace := jsReplaceFirst_of_findSigSplit _ _ _ _ hsplit
  have hpart : assistantTextPart (t ++ "\n<!-- thought_signature: " ++ X ++ " -->")
      = .textPart t (some X) := by
    unfold assistantTextPart
    rw [hsplit]
    dsimp only
    rw [hreplace, List.append_nil, jsTrim_append_newline htrim]
  have hmem : '<' ∈ (t ++ "\n<!-- thought_signature: " ++ X ++ " -->").data := by
    rw [hdata]
    refine List.mem_append.mpr (Or.inr ?_)
    refine List.mem_cons_of_mem _ ?_
    refine List.mem_append.mpr (Or.inl (List.mem_append.mpr (Or.inl ?_)))
    decide
  have hcontent : (jsTrim (t ++ "\n<!-- thought_signature: " ++ X ++ " -->").data).isEmpty
      = false := by
    have hne := jsTrim_ne_nil_of_mem hmem (by decide)
    rw [Bool.eq_false_iff]
    intro hemp
    exact hne (List.isEmpty_iff.mp hemp)
  unfold handleAssistantMessage
  dsimp only [contentTextOf]
  rw [hcontent, hpart]
  cases acc.getLast? with
  | none => simp
  | some last => simp



/-- Witness for C8 on the claim example: assistant text `"reasoning…"` with
signature `"ABC"` round-trips to the part `{text: "reasoning…",
thought_signature: "ABC"}`. -/
theorem C8_thought_signature_witness :
    handleAssistantMessage
      ⟨.str ("reasoning…" ++ "\n<!-- thought_signature: " ++ "ABC" ++ " -->"), []⟩ []
      = [⟨"model", [.textPart "reasoning…" (some "ABC")]⟩] :=
  C8_thought_signature "reasoning…" "ABC" []
    (by decide) (by decide) (by decide) (by decide) (by decide)

/-- C8 counterexample: the claim as stated is false — for the assistant
content `" hi <!-- thought_signature: ABC -->"` the code produces the part
text `"hi"`, not the content with the sentinel merely stripped (which is
`" hi "`): the code also calls `.trim()`. -/
theorem C8_counterexample :
    handleAssistantMessage ⟨.str " hi <!-- thought_signature: ABC -->", []⟩ []
      = [⟨"model", [.textPart "hi" (some "ABC")]⟩] ∧
    jsReplaceFirst (" hi <!-- thought_signature: ABC -->" : String).data
        (markerChars ++ ("ABC" : String).data ++ termChars) = (" hi " : String).data ∧
    ("hi" : String) ≠ " hi " := by
  refine ⟨by decide, by decide, by decide⟩


end Antigravity
